import Mathlib

/-!
Verification of the elephant-spell overlay spellcheck engine.

The development shallowly embeds the core of the service:

* the brace-alternation pattern expander (internal/expand.go, function Expand);
* the sliding-window phrase iterator (internal/phrases.go, PhraseIterator);
* the per-language checker state with its two tries and the base checker
  word list, and the operations AddPhrase / RemovePhrase / Check /
  Suggestions (internal/spellcheck.go);
* the ListEntries request validation (internal/service.go).

Modelling conventions:

* Strings are lists of characters (Go iterates over runes).
* The dghubble/trie RuneTrie is modelled as an association list with
  exact-key Get/Put/Delete; Put replaces in place, Delete removes.
* The hunspell checker is modelled by the list of words it accepts
  (Add inserts, Remove deletes, Spell is membership) together with a
  fixed suggestion oracle.  The oracle is kept in the state and is not
  touched by any operation.
* The blevesearch segmenter is modelled as classifying maximal runs of
  alphabetic characters (Char.isAlpha) as Letter tokens and all other
  maximal runs as non-letter tokens; only the Letter/non-Letter
  distinction is observed by the code under verification.
* Go map iteration (Phrase.Forms) is modelled as iteration over an
  association list in list order.
-/

namespace ElephantSpell

/-- Strings are modelled as lists of characters (Go runes). -/
abbrev Strn := List Char

/-! ### Segmenter tokens -/

/-- A segmenter token: its text and whether it is a Letter token. -/
structure Token where
  text : Strn
  letter : Bool
deriving DecidableEq, Repr

/-- Run-accumulating tokenizer loop: groups consecutive characters of the
same class (alphabetic / non-alphabetic) into one token. -/
def tokGo (cls : Bool) (acc : Strn) : Strn → List Token
  | [] => [⟨acc.reverse, cls⟩]
  | c :: cs =>
    if c.isAlpha = cls then tokGo cls (c :: acc) cs
    else ⟨acc.reverse, cls⟩ :: tokGo c.isAlpha [c] cs

/-- Model of the word segmenter: maximal runs of alphabetic characters
become Letter tokens, all other maximal runs become non-letter tokens. -/
def tokenize : Strn → List Token
  | [] => []
  | c :: cs => tokGo c.isAlpha [c] cs

/-- Concatenation of the texts of a token sequence. -/
def concatTexts (seg : List Token) : Strn := (seg.map Token.text).flatten

/-! ### Pattern expander (internal/expand.go, Expand) -/

/-- Errors returned by Expand, with the byte offset the Go code reports. -/
inductive ExpandErr where
  /-- nested or unclosed brace found at position pos -/
  | nestedBrace (pos : Nat)
  /-- unexpected closing brace found at position pos -/
  | unexpectedClose (pos : Nat)
  /-- unclosed brace at end of string -/
  | unclosedEnd
deriving DecidableEq, Repr

/-- strings.Split(content, "|"): split on every bar, keeping empty parts. -/
def splitBarAux (cur : Strn) : Strn → List Strn
  | [] => [cur.reverse]
  | c :: cs => if c = '|' then cur.reverse :: splitBarAux [] cs else splitBarAux (c :: cur) cs

/-- strings.Split on the bar separator. -/
def splitBar (cs : Strn) : List Strn := splitBarAux [] cs

/-- The parsing loop of Expand: walks the input, accumulating static text
in the builder buffer, flushing a singleton part at an opening brace and a
bar-split part at a closing brace.  The position argument tracks the byte
offset exactly as a Go range loop over a string does. -/
def parseExpand : Strn → Nat → List (List Strn) → Strn → Bool → Except ExpandErr (List (List Strn))
  | [], _, parts, buf, inBrace =>
    if inBrace then .error .unclosedEnd
    else .ok (if buf = [] then parts else parts ++ [[buf]])
  | c :: cs, i, parts, buf, inBrace =>
    if c = '\x7b' then
      if inBrace then .error (.nestedBrace i)
      else parseExpand cs (i + c.utf8Size) (if buf = [] then parts else parts ++ [[buf]]) [] true
    else if c = '\x7d' then
      if inBrace then parseExpand cs (i + c.utf8Size) (parts ++ [splitBar buf]) [] false
      else .error (.unexpectedClose i)
    else parseExpand cs (i + c.utf8Size) parts (buf ++ [c]) inBrace

/-- The combination loop of Expand: row-major cross product of the parts. -/
def crossProduct (parts : List (List Strn)) : List Strn :=
  parts.foldl (fun results part => results.flatMap (fun pre => part.map (fun opt => pre ++ opt))) [[]]

/-- Expand parses a string with brace-alternation syntax and returns all
permutations, or an error if the braces are unbalanced or nested
(internal/expand.go). -/
def Expand (cs : Strn) : Except ExpandErr (List Strn) :=
  match parseExpand cs 0 [] [] false with
  | .error e => .error e
  | .ok parts => .ok (if parts = [] then [[]] else crossProduct parts)

instance {ε α} [DecidableEq ε] [DecidableEq α] : DecidableEq (Except ε α) := fun a b =>
  match a, b with
  | .ok x, .ok y => decidable_of_iff (x = y) (by simp)
  | .error x, .error y => decidable_of_iff (x = y) (by simp)
  | .ok _, .error _ => isFalse (by simp)
  | .error _, .ok _ => isFalse (by simp)

/-! ### Phrase iterator (internal/phrases.go, PhraseIterator) -/

/-- Append a token to the circular buffer of the phrase iterator; once the
buffer holds cap tokens the oldest token is dropped.  The buffer is
represented chronologically, oldest first. -/
def pushWindow (cap : Nat) (win : List Token) (t : Token) : List Token :=
  if win.length < cap then win ++ [t] else (win ++ [t]).drop 1

/-- The yield loop run at each Letter token: walking the window from the
newest token backwards, emit the accumulated suffix at every Letter token
until the budget of Letter tokens is spent.  The first argument walks the
reversed window, the accumulator holds the suffix in chronological order.
This produces exactly the sequences the Go code builds from its collected
word indexes: the newest Letter alone first, then extending leftward. -/
def collectSeqs : Nat → List Token → List Token → List (List Token)
  | 0, _, _ => []
  | _ + 1, [], _ => []
  | k + 1, t :: rest, acc =>
    let acc1 := t :: acc
    if t.letter then acc1 :: collectSeqs k rest acc1
    else collectSeqs (k + 1) rest acc1

/-- The strings yielded when a Letter token has just been appended to the
window. -/
def stepYields (k : Nat) (win : List Token) : List Strn :=
  (collectSeqs k win.reverse []).map concatTexts

/-- The main loop of the phrase iterator: push each token into the window
and, at every Letter token, record the block of yielded sequences together
with the Letter token that triggered it. -/
def iterSteps (k : Nat) : List Token → List Token → List (Token × List Strn)
  | [], _ => []
  | t :: ts, win =>
    let w := pushWindow (k * 4) win t
    if t.letter then (t, stepYields k w) :: iterSteps k ts w
    else iterSteps k ts w

/-- All yield blocks of the iterator, one per Letter token of the input. -/
def yieldBlocks (k : Nat) (toks : List Token) : List (Token × List Strn) :=
  iterSteps k toks []

/-- The flat sequence of phrases yielded by the iterator over a token
stream. -/
def phraseYields (k : Nat) (toks : List Token) : List Strn :=
  ((yieldBlocks k toks).map Prod.snd).flatten

/-- PhraseIterator runs a sliding window over a text and yields all word
sequence combinations with at most phraseLength Letter tokens
(internal/phrases.go). -/
def PhraseIterator (s : Strn) (phraseLength : Nat) : List Strn :=
  phraseYields phraseLength (tokenize s)

/-! ### strings.Replacer -/

/-- Find the first replacement pair, in argument order, whose pattern is a
prefix of the text; Go compares the old strings in argument order at each
position.  Empty patterns never occur here (every pattern is a yielded
phrase, which is nonempty) and are skipped. -/
def findRepl (pairs : List (Strn × Strn)) (cs : Strn) : Option (Strn × Strn) :=
  pairs.find? (fun pr => pr.1 ≠ [] && pr.1.isPrefixOf cs)

/-- One left-to-right pass of strings.Replacer: at each position replace
the first matching pattern without overlapping matches, otherwise copy the
character.  Fuel-based recursion; the fuel is at least the text length so
the fallback branch is never reached. -/
def replacerGo : Nat → List (Strn × Strn) → Strn → Strn
  | 0, _, cs => cs
  | _ + 1, _, [] => []
  | fuel + 1, pairs, c :: cs =>
    match findRepl pairs (c :: cs) with
    | some pr => pr.2 ++ replacerGo fuel pairs ((c :: cs).drop pr.1.length)
    | none => c :: replacerGo fuel pairs cs

/-- strings.NewReplacer(pairs).Replace(cs). -/
def applyReplacer (pairs : List (Strn × Strn)) (cs : Strn) : Strn :=
  replacerGo cs.length pairs cs

/-! ### Data model -/

/-- postgres.EntryLevel.  Modelled from the spec: the level of an entry is
one of error and suggestion (the generated postgres package is not part of
the analysed sources). -/
inductive EntryLevel where
  | error
  | suggestion
deriving DecidableEq, Repr

/-- spell.CorrectionLevel of the RPC API. -/
inductive CorrectionLevel where
  | unspecified
  | suggestion
  | error
deriving DecidableEq, Repr

/-- Modelled from the spec: entryLevelToRPC maps the stored entry level to
the RPC correction level, surfacing it unchanged (the helper lives in the
service wiring that is not among the analysed sources).  The second
component is the ok flag the Go helper returns. -/
def entryLevelToRPC : EntryLevel → CorrectionLevel × Bool
  | .error => (.error, true)
  | .suggestion => (.suggestion, true)

/-- spell.Suggestion: a suggested replacement with an optional editorial
description. -/
structure Suggestion where
  text : Strn
  description : Strn
deriving DecidableEq, Repr

/-- spell.MisspelledEntry. -/
structure MisspelledEntry where
  text : Strn
  level : CorrectionLevel
  suggestions : List Suggestion
deriving DecidableEq, Repr

/-- spell.Misspelled: the result of checking one text. -/
structure Misspelled where
  entries : List MisspelledEntry
deriving DecidableEq, Repr

/-- internal.Phrase: an editorial entry projected into memory. -/
structure Phrase where
  text : Strn
  description : Strn
  commonMistakes : List Strn
  level : EntryLevel
  forms : List (Strn × Strn)
deriving DecidableEq, Repr

/-- Lookup in a Go map modelled as an association list. -/
def lookupForm (forms : List (Strn × Strn)) (k : Strn) : Option Strn :=
  (forms.find? (fun fc => fc.1 == k)).map Prod.snd

/-! ### Trie and base-checker models -/

/-- The RuneTrie is modelled as an association list with exact-key
operations. -/
abbrev Trie := List (Strn × Phrase)

/-- trie.Get: the value stored at exactly this key, if any. -/
def trieGet (t : Trie) (k : Strn) : Option Phrase :=
  match t with
  | [] => none
  | e :: rest => if e.1 = k then some e.2 else trieGet rest k

/-- trie.Put: replace the value at the key, or append a new binding. -/
def triePut (t : Trie) (k : Strn) (v : Phrase) : Trie :=
  match t with
  | [] => [(k, v)]
  | e :: rest => if e.1 = k then (k, v) :: rest else e :: triePut rest k v

/-- trie.Delete: remove every binding for the key. -/
def trieDelete (t : Trie) (k : Strn) : Trie :=
  t.filter (fun e => e.1 ≠ k)

/-- hunspell.Checker.Add: the runtime dictionary accepts the word. -/
def hunAdd (ws : List Strn) (w : Strn) : List Strn :=
  if ws.contains w then ws else ws ++ [w]

/-- hunspell.Checker.Remove: the word is removed from the runtime
dictionary. -/
def hunRemove (ws : List Strn) (w : Strn) : List Strn :=
  ws.filter (fun x => x ≠ w)

/-- hunspell.Checker.Spell: whether the word is accepted. -/
def hunSpell (ws : List Strn) (w : Strn) : Bool :=
  ws.contains w

/-- The per-language checker state: the valid trie, the mistake trie, the
base checker word list and its fixed suggestion oracle
(internal/spellcheck.go, struct Spellcheck).  The oracle stands for
hunspell.Suggest and is never modified by any operation. -/
structure LanguageState where
  valid : Trie
  mistakes : Trie
  hun : List Strn
  hunSuggest : Strn → List Strn

/-- A state with empty tries over a given base dictionary. -/
def emptyState (dict : List Strn) (oracle : Strn → List Strn) : LanguageState :=
  ⟨[], [], dict, oracle⟩

/-! ### AddPhrase and RemovePhrase (internal/spellcheck.go) -/

/-- The expansion loop of AddPhrase: expand every common-mistake template,
silently skipping templates that fail to expand. -/
def expandAll (cms : List Strn) : List Strn :=
  cms.foldl
    (fun acc cm =>
      match Expand cm with
      | .ok expanded => acc ++ expanded
      | .error _ => acc)
    []

/-- The body of the forms loops of RemovePhrase and of the cleanup pass of
AddPhrase: delete the corrected form from the valid trie and the base
checker, delete the mistaken form from the mistake trie. -/
def removeFormEntry (s : LanguageState) (fc : Strn × Strn) : LanguageState :=
  { s with
    valid := trieDelete s.valid fc.2
    hun := hunRemove s.hun fc.2
    mistakes := trieDelete s.mistakes fc.1 }

/-- The body of the forms loop of AddPhrase: store the corrected form in
the valid trie and the base checker, store the mistaken form in the
mistake trie, all pointing at the stored phrase. -/
def addFormEntry (q : Phrase) (s : LanguageState) (fc : Strn × Strn) : LanguageState :=
  { s with
    valid := triePut s.valid fc.2 q
    hun := hunAdd s.hun fc.2
    mistakes := triePut s.mistakes fc.1 q }

/-- The phrase as stored by AddPhrase: the Go code stores a pointer to the
phrase and then replaces its CommonMistakes with the expanded list, so the
stored phrase carries the expanded mistakes everywhere. -/
def addedPhrase (p : Phrase) : Phrase :=
  { p with commonMistakes := expandAll p.commonMistakes }

/-- The cleanup pass of AddPhrase: remove the old common mistakes and
forms of the phrase previously stored at the same text, so that updates do
not leave stale data in the tries.  The stored phrase always carries the
already-expanded mistake list. -/
def cleanupOld (old : Phrase) (st : LanguageState) : LanguageState :=
  let st1 := { st with mistakes := old.commonMistakes.foldl trieDelete st.mistakes }
  old.forms.foldl removeFormEntry st1

/-- Spellcheck.AddPhrase. -/
def addPhrase (p : Phrase) (st : LanguageState) : LanguageState :=
  let q := addedPhrase p
  let st1 :=
    match trieGet st.valid p.text with
    | some old => cleanupOld old st
    | none => st
  let st2 := { st1 with valid := triePut st1.valid p.text q, hun := hunAdd st1.hun p.text }
  let st3 := { st2 with mistakes := q.commonMistakes.foldl (fun m cm => triePut m cm q) st2.mistakes }
  p.forms.foldl (addFormEntry q) st3

/-- Spellcheck.RemovePhrase: look up the stored phrase and undo all of its
insertions; a no-op when nothing is stored at the text. -/
def removePhrase (text : Strn) (st : LanguageState) : LanguageState :=
  match trieGet st.valid text with
  | none => st
  | some p =>
    let st1 := { st with hun := hunRemove st.hun text, valid := trieDelete st.valid text }
    let st2 := { st1 with mistakes := p.commonMistakes.foldl trieDelete st1.mistakes }
    p.forms.foldl removeFormEntry st2

/-! ### Check (internal/spellcheck.go, Spellcheck.Check) -/

/-- Accumulator of the overlay loop of Check: the replacement pairs and
the custom entries collected so far. -/
structure OverAcc where
  repls : List (Strn × Strn)
  entries : List MisspelledEntry
deriving DecidableEq, Repr

/-- The custom entry Check emits for a mistake-trie hit: the surface text,
the level of the phrase, and, when requested, the canonical text for a
common-mistake match and the corrected form for a forms match, each
carrying the phrase description. -/
def overlayEntry (withSuggestions : Bool) (p : Phrase) (y : Strn) : MisspelledEntry :=
  { text := y
    level := (entryLevelToRPC p.level).1
    suggestions :=
      (if withSuggestions && p.commonMistakes.contains y then
        [Suggestion.mk p.text p.description]
      else []) ++
      (if withSuggestions then
        match lookupForm p.forms y with
        | some f => [Suggestion.mk f p.description]
        | none => []
      else []) }

/-- One iteration of the overlay loop of Check: a valid-trie hit records a
replacement; a mistake-trie hit that was not already reported for the same
surface text emits an entry (with suggestions when requested) and records
a replacement.  The state is threaded unchanged: the loop only performs
trie Get calls. -/
def overlayStep (withSuggestions : Bool) (a : OverAcc × LanguageState) (y : Strn) :
    OverAcc × LanguageState :=
  let acc := a.1
  let st := a.2
  let repls1 := if (trieGet st.valid y).isSome then acc.repls ++ [(y, [])] else acc.repls
  match trieGet st.mistakes y with
  | none => (⟨repls1, acc.entries⟩, st)
  | some p =>
    if acc.entries.any (fun m => m.text == y) then (⟨repls1, acc.entries⟩, st)
    else (⟨repls1 ++ [(y, [])], acc.entries ++ [overlayEntry withSuggestions p y]⟩, st)

/-- Accumulator of the residue loop of Check: the words already checked
and the entries collected. -/
structure ResAcc where
  seen : List Strn
  entries : List MisspelledEntry
deriving DecidableEq, Repr

/-- The entry Check emits for a word the base checker flags: error level,
with the base-checker suggestions (description-less) when requested. -/
def residueEntry (withSuggestions : Bool) (st : LanguageState) (w : Strn) : MisspelledEntry :=
  { text := w
    level := .error
    suggestions :=
      if withSuggestions then (st.hunSuggest w).map (fun s => Suggestion.mk s []) else [] }

/-- One iteration of the residue loop of Check: for each unseen Letter
token ask the base checker; when it is misspelled, emit an error-level
entry, filling suggestions from the base checker when requested.  The
state is threaded unchanged: the loop only calls Spell and Suggest. -/
def residueStep (withSuggestions : Bool) (a : ResAcc × LanguageState) (tok : Token) :
    ResAcc × LanguageState :=
  let acc := a.1
  let st := a.2
  if tok.letter then
    if acc.seen.contains tok.text then a
    else
      let seen1 := acc.seen ++ [tok.text]
      if hunSpell st.hun tok.text then (⟨seen1, acc.entries⟩, st)
      else (⟨seen1, acc.entries ++ [residueEntry withSuggestions st tok.text]⟩, st)
  else a

/-- Spellcheck.Check: scan all phrases of at most 3 words against the two
tries, then apply the collected replacements and send the residue to the
base checker.  Returns the collected entries together with the state after
the call. -/
def check (st : LanguageState) (text : Strn) (withSuggestions : Bool) :
    Misspelled × LanguageState :=
  if text = [] then (⟨[]⟩, st)
  else
    let ov := (PhraseIterator text 3).foldl (overlayStep withSuggestions) (⟨[], []⟩, st)
    let residue := if ov.1.repls ≠ [] then applyReplacer ov.1.repls text else text
    let rs := (tokenize residue).foldl (residueStep withSuggestions) (⟨[], []⟩, ov.2)
    (⟨ov.1.entries ++ rs.1.entries⟩, rs.2)

/-- Spellcheck.Suggestions: overlay suggestions for the exact text, then
base-checker suggestions for single misspelled words only.  Returns the
state after the call. -/
def suggestionsOp (st : LanguageState) (text : Strn) : List Suggestion × LanguageState :=
  let base :=
    match trieGet st.mistakes text with
    | some p =>
      (if p.commonMistakes.contains text then [Suggestion.mk p.text p.description] else []) ++
      (match lookupForm p.forms text with
       | some f => [Suggestion.mk f p.description]
       | none => [])
    | none => []
  let more :=
    if !text.contains ' ' && !hunSpell st.hun text then
      (st.hunSuggest text).map (fun s => Suggestion.mk s [])
    else []
  (base ++ more, st)

/-! ### Service layer -/

/-- Errors surfaced by the service handlers, as far as the claims need
them. -/
inductive TwirpError where
  | permissionDenied
  | invalidArgument (argument : Strn)
deriving DecidableEq, Repr

/-- spell.ListEntriesRequest. -/
structure ListEntriesRequest where
  language : Strn
  pfx : Strn
  status : Strn
  page : Int
deriving DecidableEq, Repr

/-- The parameters ListEntries passes to the database query. -/
structure ListEntriesQuery where
  language : Option Strn
  pattern : Option Strn
  status : Option Strn
  limit : Int
  offset : Int
deriving DecidableEq, Repr

/-- pg.TextOrNull: an empty string becomes SQL NULL. -/
def textOrNull (s : Strn) : Option Strn := if s = [] then none else some s

/-- Two's-complement wrap-around of an integer into the int64 range,
as Go arithmetic on int64 behaves. -/
def wrap64 (x : Int) : Int := (x + 2 ^ 63) % 2 ^ 64 - 2 ^ 63

/-- Application.ListEntries (internal/service.go): after the scope check,
reject prefixes containing a percent sign, turn a nonempty prefix into a
LIKE pattern, and query with a fixed page size of 100. -/
def listEntriesPlan (hasWriteScope : Bool) (req : ListEntriesRequest) :
    Except TwirpError ListEntriesQuery :=
  if !hasWriteScope then .error .permissionDenied
  else if req.pfx.contains '%' then .error (.invalidArgument "prefix".toList)
  else
    let pattern := if req.pfx ≠ [] then req.pfx ++ "%".toList else []
    let limit : Int := 100
    .ok
      { language := textOrNull req.language
        pattern := textOrNull pattern
        status := textOrNull req.status
        limit := limit
        offset := wrap64 (limit * req.page) }

/-- Modelled from the spec: the Text endpoint of the Check service runs
the per-language Check over every input string on the lower-cost path,
that is without suggestions (the current service wiring of Text onto
Spellcheck.Check is not among the analysed sources; the spec specifies
that Text returns entries with empty suggestion lists). -/
def TextEndpoint (st : LanguageState) (texts : List Strn) : List Misspelled :=
  texts.map (fun t => (check st t false).1)

/-! ### Generic fold lemmas -/

/-- A fold preserves any invariant its step preserves. -/
theorem foldlInv {α σ : Type} (f : σ → α → σ) (P : σ → Prop)
    (h : ∀ s a, P s → P (f s a)) :
    ∀ (l : List α) (s : σ), P s → P (l.foldl f s) := by
  intro l
  induction l with
  | nil => intro s hs; exact hs
  | cons a t ih => intro s hs; exact ih (f s a) (h s a hs)

/-- A fold whose step keeps the second component fixed keeps it fixed
overall. -/
theorem foldl_snd_fixed {α β σ : Type} (f : β × σ → α → β × σ)
    (h : ∀ ps a, (f ps a).2 = ps.2) :
    ∀ (l : List α) (ps : β × σ), (l.foldl f ps).2 = ps.2 := by
  intro l
  induction l with
  | nil => intro ps; rfl
  | cons a t ih =>
    intro ps
    simp only [List.foldl_cons]
    rw [ih (f ps a)]
    exact h ps a

/-! ### C10: Check and Suggestions leave the state unchanged -/

theorem overlayStep_snd (b : Bool) (a : OverAcc × LanguageState) (y : Strn) :
    (overlayStep b a y).2 = a.2 := by
  unfold overlayStep
  dsimp only
  split
  · rfl
  · split <;> rfl

theorem residueStep_snd (b : Bool) (a : ResAcc × LanguageState) (tok : Token) :
    (residueStep b a tok).2 = a.2 := by
  unfold residueStep
  dsimp only
  split
  · split
    · rfl
    · split <;> rfl
  · rfl

/-- C10: for every input text and flag value, Check and Suggestions leave
the LanguageState unchanged: neither the valid trie, nor the mistake trie,
nor the base-checker word list is modified by these read-path operations,
which only perform trie lookups and base-checker Spell and Suggest
calls. -/
theorem check_suggestions_read_only :
    (∀ (st : LanguageState) (text : Strn) (b : Bool), (check st text b).2 = st) ∧
    (∀ (st : LanguageState) (text : Strn), (suggestionsOp st text).2 = st) := by
  constructor
  · intro st text b
    unfold check
    split
    · rfl
    · simp only
      rw [foldl_snd_fixed (residueStep b) (residueStep_snd b)]
      exact foldl_snd_fixed (overlayStep b) (overlayStep_snd b) _ _
  · intro st text
    rfl

/-! ### C8: the Text endpoint reports misspellings without suggestions -/

theorem overlayEntry_false_suggestions (p : Phrase) (y : Strn) :
    (overlayEntry false p y).suggestions = [] := by
  simp [overlayEntry]

theorem overlayFold_no_suggestions (st : LanguageState) (l : List Strn) :
    ∀ e ∈ (l.foldl (overlayStep false) (⟨[], []⟩, st)).1.entries, e.suggestions = [] := by
  refine foldlInv (overlayStep false)
    (fun a => ∀ e ∈ a.1.entries, e.suggestions = []) ?_ l (⟨[], []⟩, st) ?_
  · intro a y ha
    unfold overlayStep
    dsimp only
    split
    · exact ha
    · split
      · exact ha
      · intro e he
        simp only [List.mem_append, List.mem_singleton] at he
        rcases he with he | he
        · exact ha e he
        · rw [he]; exact overlayEntry_false_suggestions _ y
  · intro e he; simp at he

theorem residueFold_no_suggestions (init : ResAcc × LanguageState) (toks : List Token)
    (hinit : ∀ e ∈ init.1.entries, e.suggestions = []) :
    ∀ e ∈ (toks.foldl (residueStep false) init).1.entries, e.suggestions = [] := by
  refine foldlInv (residueStep false)
    (fun a => ∀ e ∈ a.1.entries, e.suggestions = []) ?_ toks init hinit
  intro a tok ha
  unfold residueStep
  dsimp only
  split
  · split
    · exact ha
    · split
      · exact ha
      · intro e he
        simp only [List.mem_append, List.mem_singleton] at he
        rcases he with he | he
        · exact ha e he
        · rw [he]; simp [residueEntry]
  · exact ha

theorem check_false_no_suggestions (st : LanguageState) (text : Strn) :
    ∀ e ∈ (check st text false).1.entries, e.suggestions = [] := by
  unfold check
  split
  · intro e he; simp at he
  · simp only
    intro e he
    simp only [List.mem_append] at he
    rcases he with he | he
    · exact overlayFold_no_suggestions st (PhraseIterator text 3) e he
    · exact residueFold_no_suggestions _ _ (by intro e2 he2; simp at he2) e he

/-- C8: every entry of every result of the Text endpoint has an empty
suggestion list: the Text endpoint is the lower-cost path that reports
misspellings without computing suggestions. -/
theorem textEndpoint_no_suggestions (st : LanguageState) (texts : List Strn) :
    ∀ ms ∈ TextEndpoint st texts, ∀ e ∈ ms.entries, e.suggestions = [] := by
  intro ms hms e he
  unfold TextEndpoint at hms
  rcases List.mem_map.mp hms with ⟨t, _, rfl⟩
  exact check_false_no_suggestions st t e he

/-- Closed witness for the Text-endpoint theorem at a concrete state and
input with a misspelled word. -/
theorem textEndpoint_no_suggestions_witness :
    (Misspelled.mk [⟨"hej".toList, .error, []⟩]) ∈
      TextEndpoint (emptyState [] (fun _ => [])) ["hej".toList] ∧
    (⟨"hej".toList, .error, []⟩ : MisspelledEntry) ∈
      (Misspelled.mk [⟨"hej".toList, .error, []⟩]).entries ∧
    (⟨"hej".toList, .error, []⟩ : MisspelledEntry).suggestions = [] := by
  refine ⟨by decide, by decide, ?_⟩
  exact textEndpoint_no_suggestions (emptyState [] (fun _ => [])) ["hej".toList]
    (Misspelled.mk [⟨"hej".toList, .error, []⟩]) (by decide)
    (⟨"hej".toList, .error, []⟩ : MisspelledEntry) (by decide)

/-! ### C9: ListEntries validation and query parameters -/

theorem wrap64_eq_self (x : Int) (h1 : -(2 ^ 63) ≤ x) (h2 : x < 2 ^ 63) :
    wrap64 x = x := by
  unfold wrap64
  omega

/-- C9 (amended): ListEntries rejects every request whose prefix contains
a percent sign with an InvalidArgument error and performs no query; for
every request with a nonempty percent-free prefix it queries with the
LIKE pattern built by appending a percent sign to the prefix, a fixed
limit of 100 rows and an offset of 100 times the requested page computed
with int64 wrap-around; whenever that product fits in int64 the offset is
exactly 100 times the page. -/
theorem listEntries_plan (req : ListEntriesRequest) :
    (req.pfx.contains '%' = true →
      listEntriesPlan true req = .error (.invalidArgument "prefix".toList)) ∧
    (req.pfx ≠ [] → req.pfx.contains '%' = false →
      listEntriesPlan true req = .ok
        { language := textOrNull req.language
          pattern := some (req.pfx ++ "%".toList)
          status := textOrNull req.status
          limit := 100
          offset := wrap64 (100 * req.page) } ∧
      (-(2 ^ 63) ≤ 100 * req.page → 100 * req.page < 2 ^ 63 →
        wrap64 (100 * req.page) = 100 * req.page)) := by
  constructor
  · intro hpc
    have hmem : '%' ∈ req.pfx := by simpa using hpc
    simp [listEntriesPlan, hmem]
  · intro hne hpc
    have hmem : '%' ∉ req.pfx := by simpa using hpc
    refine ⟨?_, fun h1 h2 => wrap64_eq_self (100 * req.page) h1 h2⟩
    simp [listEntriesPlan, hmem, hne, textOrNull]

/-- Counterexample to C9 as stated: the offset is the int64 product
100 * page, which wraps on overflow.  At page 2^62 the product is
25 * 2^64, the int64 value wraps to 0, and the service queries the first
page: the offset is 0, not 100 * 2^62. -/
theorem listEntries_offset_counterexample :
    listEntriesPlan true ⟨[], "a".toList, [], 2 ^ 62⟩ =
      .ok { language := none, pattern := some "a%".toList, status := none,
            limit := 100, offset := 0 } ∧
    (0 : Int) ≠ 100 * 2 ^ 62 := by
  refine ⟨by decide, by decide⟩

/-- Closed witness for the ListEntries theorem: a prefix with a percent
sign is rejected, a clean prefix at an in-range page produces the LIKE
query with page size 100 and the exact offset. -/
theorem listEntries_plan_witness :
    ("a%b".toList.contains '%' = true ∧
      listEntriesPlan true ⟨[], "a%b".toList, [], 0⟩ =
        .error (.invalidArgument "prefix".toList)) ∧
    ("ab".toList ≠ [] ∧ "ab".toList.contains '%' = false ∧
      ((-(2 ^ 63) : Int) ≤ 100 * 2 ∧ (100 * 2 : Int) < 2 ^ 63) ∧
      listEntriesPlan true ⟨[], "ab".toList, [], 2⟩ =
        .ok { language := none, pattern := some "ab%".toList, status := none,
              limit := 100, offset := 200 } ∧
      wrap64 (100 * (2 : Int)) = 100 * 2) := by
  constructor
  · exact ⟨by decide,
      (listEntries_plan ⟨[], "a%b".toList, [], 0⟩).1 (by decide)⟩
  · refine ⟨by decide, by decide, ⟨by decide, by decide⟩, ?_, ?_⟩
    · have h := ((listEntries_plan ⟨[], "ab".toList, [], 2⟩).2 (by decide) (by decide)).1
      rw [h]
      decide
    · exact ((listEntries_plan ⟨[], "ab".toList, [], 2⟩).2 (by decide) (by decide)).2
        (by decide) (by decide)

/-! ### C5 and C6: the pattern expander

Spec-side view of templates: a template is a sequence of static runs and
brace groups.  The render function prints such a sequence back to the
concrete syntax, specExpand gives the row-major cross product the spec
prescribes. -/

/-- A spec-level template item: a static run or a brace group with its
options. -/
inductive TItem where
  | lit (s : Strn)
  | group (opts : List Strn)
deriving DecidableEq, Repr

/-- The options an item contributes at its position. -/
def TItem.options : TItem → List Strn
  | .lit s => [s]
  | .group os => os

/-- Whether the item is a static run. -/
def TItem.isLit : TItem → Bool
  | .lit _ => true
  | .group _ => false

/-- Interleave the bar separator between options. -/
def joinBar : List Strn → Strn
  | [] => []
  | [s] => s
  | s :: rest => s ++ '|' :: joinBar rest

/-- Print an item back to concrete template syntax. -/
def renderItem : TItem → Strn
  | .lit s => s
  | .group os => '\x7b' :: (joinBar os ++ ['\x7d'])

/-- Print a template back to concrete syntax. -/
def render (items : List TItem) : Strn := (items.map renderItem).flatten

/-- The spec-side expansion: the full cross product of the options of the
items in left-to-right, top-to-bottom (row-major) order. -/
def specExpand (items : List TItem) : List Strn :=
  items.foldl (fun acc it => acc.flatMap (fun pre => it.options.map (fun opt => pre ++ opt))) [[]]

/-- A character that is not a brace. -/
def goodChar (c : Char) : Bool := c ≠ '\x7b' && c ≠ '\x7d'

/-- A static run: nonempty and brace-free. -/
def goodLit (s : Strn) : Bool := !s.isEmpty && s.all goodChar

/-- A group option: brace-free and bar-free. -/
def goodOpt (s : Strn) : Bool := s.all (fun c => goodChar c && c ≠ '|')

/-- Well-formedness of an item. -/
def goodItem : TItem → Bool
  | .lit s => goodLit s
  | .group os => !os.isEmpty && os.all goodOpt

/-- No two adjacent static runs (a maximal static run is one item). -/
def noAdjLits : List TItem → Bool
  | [] => true
  | [_] => true
  | a :: b :: rest => !(a.isLit && b.isLit) && noAdjLits (b :: rest)

/-- Total UTF-8 byte length, as a Go range loop advances its index. -/
def utf8Len (s : Strn) : Nat := (s.map Char.utf8Size).sum

theorem parse_consume (s : Strn) :
    ∀ (cs : Strn) (i : Nat) (parts : List (List Strn)) (buf : Strn) (inB : Bool),
      s.all goodChar = true →
      parseExpand (s ++ cs) i parts buf inB =
        parseExpand cs (i + utf8Len s) parts (buf ++ s) inB := by
  induction s with
  | nil => intro cs i parts buf inB _; simp [utf8Len]
  | cons c s ih =>
    intro cs i parts buf inB hall
    simp only [List.all_cons, Bool.and_eq_true] at hall
    obtain ⟨hc, hs⟩ := hall
    simp only [goodChar, Bool.and_eq_true, decide_eq_true_eq] at hc
    obtain ⟨hc1, hc2⟩ := hc
    simp only [List.cons_append, parseExpand, if_neg hc1, if_neg hc2, List.append_eq]
    rw [ih cs (i + c.utf8Size) parts (buf ++ [c]) inB hs]
    congr 1
    · simp [utf8Len]; omega
    · simp

theorem splitBarAux_consume (s : Strn) :
    ∀ (cur cs : Strn), s.all (fun c => decide (c ≠ '|')) = true →
      splitBarAux cur (s ++ cs) = splitBarAux (s.reverse ++ cur) cs := by
  induction s with
  | nil => intro cur cs _; simp
  | cons c s ih =>
    intro cur cs hall
    simp only [List.all_cons, Bool.and_eq_true, decide_eq_true_eq] at hall
    obtain ⟨hc, hs⟩ := hall
    simp only [List.cons_append, splitBarAux, if_neg hc, List.append_eq]
    rw [ih (c :: cur) cs (by simpa using hs)]
    congr 1
    simp

theorem goodOpt_barFree {s : Strn} (h : goodOpt s = true) :
    s.all (fun c => decide (c ≠ '|')) = true := by
  simp only [goodOpt, List.all_eq_true, Bool.and_eq_true] at h ⊢
  intro c hc
  exact (h c hc).2

theorem goodOpt_braceFree {s : Strn} (h : goodOpt s = true) : s.all goodChar = true := by
  simp only [goodOpt, List.all_eq_true, Bool.and_eq_true] at h ⊢
  intro c hc
  exact (h c hc).1

theorem joinBar_braceFree {os : List Strn} (h : ∀ o ∈ os, goodOpt o = true) :
    (joinBar os).all goodChar = true := by
  induction os with
  | nil => rfl
  | cons s rest ih =>
    cases rest with
    | nil => simpa [joinBar] using goodOpt_braceFree (h s (by simp))
    | cons b t =>
      have h1 : joinBar (s :: b :: t) = s ++ '|' :: joinBar (b :: t) := rfl
      rw [h1]
      simp only [List.all_append, List.all_cons, Bool.and_eq_true]
      exact ⟨goodOpt_braceFree (h s (by simp)), by decide,
        ih (fun o ho => h o (by simp [ho]))⟩

theorem splitBar_joinBar : ∀ (os : List Strn), os ≠ [] → (∀ o ∈ os, goodOpt o = true) →
    splitBar (joinBar os) = os := by
  intro os
  induction os with
  | nil => intro h; exact absurd rfl h
  | cons s rest ih =>
    intro _ hgood
    cases rest with
    | nil =>
      have hbar := goodOpt_barFree (hgood s (by simp))
      show splitBarAux [] (joinBar [s]) = [s]
      have h1 : joinBar [s] = s ++ [] := by simp [joinBar]
      rw [h1, splitBarAux_consume s [] [] hbar]
      simp [splitBarAux]
    | cons b t =>
      have hbar := goodOpt_barFree (hgood s (by simp))
      show splitBarAux [] (joinBar (s :: b :: t)) = s :: b :: t
      have hj : joinBar (s :: b :: t) = s ++ '|' :: joinBar (b :: t) := rfl
      rw [hj, splitBarAux_consume s [] ('|' :: joinBar (b :: t)) hbar]
      simp only [splitBarAux, if_pos rfl, List.append_nil]
      have h2 := ih (by simp) (fun o ho => hgood o (by simp [ho]))
      simp only [splitBar] at h2
      simp [h2]

theorem parseExpand_nil_false (i : Nat) (parts : List (List Strn)) (buf : Strn) :
    parseExpand [] i parts buf false = .ok (if buf = [] then parts else parts ++ [[buf]]) := rfl

theorem parseExpand_open_empty (cs : Strn) (i : Nat) (parts : List (List Strn)) :
    parseExpand ('{' :: cs) i parts [] false =
      parseExpand cs (i + '{'.utf8Size) parts [] true := by
  simp [parseExpand]

theorem parseExpand_open_buf (cs : Strn) (i : Nat) (parts : List (List Strn)) (buf : Strn)
    (h : buf ≠ []) :
    parseExpand ('{' :: cs) i parts buf false =
      parseExpand cs (i + '{'.utf8Size) (parts ++ [[buf]]) [] true := by
  simp [parseExpand, h]

theorem parseExpand_close (cs : Strn) (i : Nat) (parts : List (List Strn)) (buf : Strn) :
    parseExpand ('}' :: cs) i parts buf true =
      parseExpand cs (i + '}'.utf8Size) (parts ++ [splitBar buf]) [] false := by
  simp [parseExpand]

theorem parse_render : ∀ (n : Nat) (items : List TItem), items.length ≤ n →
    (∀ it ∈ items, goodItem it = true) → noAdjLits items = true →
    ∀ (i : Nat) (parts : List (List Strn)),
      parseExpand (render items) i parts [] false = .ok (parts ++ items.map TItem.options) := by
  intro n
  induction n with
  | zero =>
    intro items hlen _ _ i parts
    have h0 : items = [] := List.length_eq_zero.mp (Nat.le_zero.mp hlen)
    subst h0
    simp [render, parseExpand]
  | succ n ih =>
    intro items hlen hgood hadj i parts
    match items with
    | [] => simp [render, parseExpand]
    | .group os :: rest =>
      have hos : goodItem (.group os) = true := hgood _ (by simp)
      simp only [goodItem, Bool.and_eq_true, List.all_eq_true] at hos
      obtain ⟨hosne, hosopt⟩ := hos
      have hosne2 : os ≠ [] := by simpa using hosne
      have hrest : ∀ it ∈ rest, goodItem it = true := fun it hit => hgood it (by simp [hit])
      have hadjrest : noAdjLits rest = true := by
        cases rest with
        | nil => rfl
        | cons b u =>
          simp only [noAdjLits, Bool.and_eq_true] at hadj
          exact hadj.2
      have hr : render (.group os :: rest) =
          '{' :: (joinBar os ++ ('}' :: render rest)) := by
        simp [render, renderItem]
      have hjb : (joinBar os).all goodChar = true := joinBar_braceFree hosopt
      rw [hr, parseExpand_open_empty,
        parse_consume (joinBar os) ('}' :: render rest) _ parts [] true hjb,
        List.nil_append, parseExpand_close,
        ih rest (by simp only [List.length_cons] at hlen; omega) hrest hadjrest,
        splitBar_joinBar os hosne2 hosopt]
      simp [TItem.options]
    | .lit s :: rest =>
      have hs : goodItem (.lit s) = true := hgood _ (by simp)
      simp only [goodItem, goodLit, Bool.and_eq_true] at hs
      obtain ⟨hsne, hsgood⟩ := hs
      have hsne2 : s ≠ [] := by simpa using hsne
      have hr : render (.lit s :: rest) = s ++ render rest := by simp [render, renderItem]
      rw [hr, parse_consume s (render rest) i parts [] false hsgood, List.nil_append]
      match rest, hadj with
      | [], _ =>
        simp [render, parseExpand, hsne2, TItem.options]
      | .lit s2 :: t, hadj => simp [noAdjLits, TItem.isLit] at hadj
      | .group os :: t, hadj =>
        have hos : goodItem (.group os) = true := hgood _ (by simp)
        simp only [goodItem, Bool.and_eq_true, List.all_eq_true] at hos
        obtain ⟨hosne, hosopt⟩ := hos
        have hosne2 : os ≠ [] := by simpa using hosne
        have ht : ∀ it ∈ t, goodItem it = true := fun it hit => hgood it (by simp [hit])
        have hadjt : noAdjLits t = true := by
          have h2 : noAdjLits (.group os :: t) = true := by
            simp only [noAdjLits, Bool.and_eq_true] at hadj
            exact hadj.2
          cases t with
          | nil => rfl
          | cons b u =>
            simp only [noAdjLits, Bool.and_eq_true] at h2
            exact h2.2
        have hrg : render (.group os :: t) = '{' :: (joinBar os ++ ('}' :: render t)) := by
          simp [render, renderItem]
        have hjb : (joinBar os).all goodChar = true := joinBar_braceFree hosopt
        rw [hrg, parseExpand_open_buf _ _ _ _ hsne2,
          parse_consume (joinBar os) ('}' :: render t) _ _ [] true hjb,
          List.nil_append, parseExpand_close,
          ih t (by simp only [List.length_cons] at hlen; omega) ht hadjt,
          splitBar_joinBar os hosne2 hosopt]
        simp [TItem.options]

/-- C5: for every well-formed template, presented as its sequence of
static runs and brace groups, Expand succeeds and returns exactly the
row-major cross product of the options; instantiating with a single
static run gives the no-brace case (the input itself) and the empty
sequence gives the empty template (a single empty string). -/
theorem expand_cross_product (items : List TItem)
    (hgood : ∀ it ∈ items, goodItem it = true) (hadj : noAdjLits items = true) :
    Expand (render items) = .ok (specExpand items) := by
  unfold Expand
  rw [parse_render items.length items (le_refl _) hgood hadj 0 []]
  simp only [List.nil_append]
  have hspec : specExpand items = crossProduct (items.map TItem.options) := by
    simp [specExpand, crossProduct, List.foldl_map]
  split
  · rename_i hempty
    have : items = [] := by simpa using hempty
    subst this
    simp [specExpand]
  · rw [hspec]

/-- The template of the end-to-end example of the spec. -/
def exTemplate : List TItem :=
  [.group ["A".toList, "B".toList], .lit " ".toList, .group ["1".toList, "2".toList]]

/-- Closed witness for the cross-product theorem: the spec example with
two groups expands in row-major order, a no-brace template yields itself,
and the empty template yields a single empty string. -/
theorem expand_cross_product_witness :
    ((∀ it ∈ exTemplate, goodItem it = true) ∧ noAdjLits exTemplate = true ∧
      Expand "\x7bA|B\x7d \x7b1|2\x7d".toList =
        .ok ["A 1".toList, "A 2".toList, "B 1".toList, "B 2".toList]) ∧
    Expand "Sven Persson".toList = .ok ["Sven Persson".toList] ∧
    Expand [] = .ok [[]] := by
  refine ⟨⟨by decide, by decide, ?_⟩, ?_, ?_⟩
  · have h := expand_cross_product exTemplate (by decide) (by decide)
    rw [show render exTemplate = "\x7bA|B\x7d \x7b1|2\x7d".toList by decide] at h
    rw [h]
    decide
  · have h := expand_cross_product [.lit "Sven Persson".toList] (by decide) (by decide)
    rw [show render [TItem.lit "Sven Persson".toList] = "Sven Persson".toList by decide] at h
    rw [h]
    decide
  · have h := expand_cross_product [] (by decide) (by decide)
    simpa [render, specExpand] using h

/-! ### C6: success characterisation of Expand -/

/-- The spec-side grammar of acceptable templates: a sequence of non-brace
characters and complete brace groups whose contents are brace-free.  A
template is rejected exactly when it falls outside this grammar: a nested
opening brace, an unclosed opening brace or a stray closing brace. -/
inductive WellBraced : Strn → Prop
  | nil : WellBraced []
  | chr {c : Char} {cs : Strn} : c ≠ '\x7b' → c ≠ '\x7d' → WellBraced cs →
      WellBraced (c :: cs)
  | grp {g cs : Strn} : (∀ c ∈ g, c ≠ '\x7b' ∧ c ≠ '\x7d') → WellBraced cs →
      WellBraced ('\x7b' :: (g ++ '\x7d' :: cs))

theorem except_isOk_ok {e a : Type} (x : a) : (Except.ok x : Except e a).isOk = true := rfl

theorem except_isOk_error {e a : Type} (x : e) : (Except.error x : Except e a).isOk = false := rfl

/-- Success of the parse loop does not depend on the position, the
accumulated parts or the buffer. -/
theorem parse_isOk_irrel :
    ∀ (cs : Strn) (inB : Bool) (i i2 : Nat) (parts parts2 : List (List Strn))
      (buf buf2 : Strn),
      (parseExpand cs i parts buf inB).isOk = (parseExpand cs i2 parts2 buf2 inB).isOk := by
  intro cs
  induction cs with
  | nil =>
    intro inB i i2 parts parts2 buf buf2
    cases inB with
    | false => simp [parseExpand, except_isOk_ok]
    | true => simp [parseExpand]
  | cons c t ih =>
    intro inB i i2 parts parts2 buf buf2
    by_cases h1 : c = '\x7b'
    · subst h1
      cases inB with
      | false =>
        simp only [parseExpand, if_pos rfl, Bool.false_eq_true, if_false]
        exact ih true _ _ _ _ _ _
      | true => simp [parseExpand, except_isOk_error]
    · by_cases h2 : c = '\x7d'
      · subst h2
        cases inB with
        | false => simp [parseExpand, h1, except_isOk_error]
        | true =>
          simp only [parseExpand, if_neg h1, if_pos rfl, if_true]
          exact ih false _ _ _ _ _ _
      · simp only [parseExpand, if_neg h1, if_neg h2]
        exact ih inB _ _ _ _ _ _

/-- When the parse loop succeeds inside a brace group, the remaining input
starts with a brace-free run closed by a closing brace, and the parse of
the remainder succeeds. -/
theorem parse_true_ok :
    ∀ (cs : Strn) (i : Nat) (parts : List (List Strn)) (buf : Strn),
      (parseExpand cs i parts buf true).isOk = true →
      ∃ g rest, cs = g ++ '\x7d' :: rest ∧ (∀ c ∈ g, c ≠ '\x7b' ∧ c ≠ '\x7d') ∧
        (parseExpand rest 0 [] [] false).isOk = true := by
  intro cs
  induction cs with
  | nil => intro i parts buf h; simp [parseExpand, except_isOk_error] at h
  | cons c t ih =>
    intro i parts buf h
    by_cases h1 : c = '\x7b'
    · subst h1; simp [parseExpand, except_isOk_error] at h
    · by_cases h2 : c = '\x7d'
      · subst h2
        refine ⟨[], t, by simp, by simp, ?_⟩
        simp only [parseExpand, if_neg h1, if_pos rfl, if_true] at h
        rw [parse_isOk_irrel t false 0 _ [] _ [] _]
        exact h
      · simp only [parseExpand, if_neg h1, if_neg h2] at h
        obtain ⟨g, rest, hteq, hg, hrest⟩ := ih _ _ _ h
        refine ⟨c :: g, rest, by simp [hteq], ?_, hrest⟩
        intro d hd
        rcases List.mem_cons.mp hd with rfl | hd2
        · exact ⟨h1, h2⟩
        · exact hg d hd2

/-- A well-braced template parses successfully from any start state
outside a group. -/
theorem wb_parse_ok {cs : Strn} (h : WellBraced cs) :
    ∀ (i : Nat) (parts : List (List Strn)) (buf : Strn),
      (parseExpand cs i parts buf false).isOk = true := by
  induction h with
  | nil => intro i parts buf; simp [parseExpand, except_isOk_ok]
  | chr hc1 hc2 _ ih =>
    intro i parts buf
    simp only [parseExpand, if_neg hc1, if_neg hc2]
    exact ih _ _ _
  | grp hg _ ih =>
    intro i parts buf
    rename_i g cs2 _
    have hgall : g.all goodChar = true := by
      simp only [List.all_eq_true, goodChar, Bool.and_eq_true, decide_eq_true_eq]
      exact hg
    by_cases hb : buf = []
    · subst hb
      rw [parseExpand_open_empty, parse_consume g ('\x7d' :: cs2) _ _ [] true hgall,
        List.nil_append, parseExpand_close]
      exact ih _ _ _
    · rw [parseExpand_open_buf _ _ _ _ hb, parse_consume g ('\x7d' :: cs2) _ _ [] true hgall,
        List.nil_append, parseExpand_close]
      exact ih _ _ _

/-- A template whose parse succeeds from a state outside a group is
well-braced. -/
theorem parse_ok_wb : ∀ (n : Nat) (cs : Strn), cs.length ≤ n →
    ∀ (i : Nat) (parts : List (List Strn)) (buf : Strn),
      (parseExpand cs i parts buf false).isOk = true → WellBraced cs := by
  intro n
  induction n with
  | zero =>
    intro cs hlen i parts buf _
    have h0 : cs = [] := List.length_eq_zero.mp (Nat.le_zero.mp hlen)
    subst h0
    exact WellBraced.nil
  | succ n ih =>
    intro cs hlen i parts buf h
    match cs with
    | [] => exact WellBraced.nil
    | c :: t =>
      by_cases h1 : c = '\x7b'
      · subst h1
        have h2 : ∃ parts2, (parseExpand t (i + Char.utf8Size '\x7b') parts2 [] true).isOk = true := by
          by_cases hb : buf = []
          · subst hb
            rw [parseExpand_open_empty] at h
            exact ⟨parts, h⟩
          · rw [parseExpand_open_buf _ _ _ _ hb] at h
            exact ⟨parts ++ [[buf]], h⟩
        obtain ⟨parts2, h2⟩ := h2
        obtain ⟨g, rest, hteq, hg, hrest⟩ := parse_true_ok t _ _ _ h2
        subst hteq
        refine WellBraced.grp hg (ih rest ?_ 0 [] [] hrest)
        simp only [List.length_cons, List.length_append] at hlen ⊢
        omega
      · by_cases h2 : c = '\x7d'
        · subst h2
          simp [parseExpand, h1, except_isOk_error] at h
        · simp only [parseExpand, if_neg h1, if_neg h2] at h
          refine WellBraced.chr h1 h2 (ih t ?_ _ _ _ h)
          simp only [List.length_cons] at hlen
          omega

/-- C6: Expand returns an error if and only if the template falls outside
the well-braced grammar, that is it contains a nested opening brace, an
unclosed opening brace or a stray closing brace; on every well-braced
template, including ones with the empty group, it succeeds. -/
theorem expand_ok_iff_wellBraced (cs : Strn) :
    (Expand cs).isOk = true ↔ WellBraced cs := by
  have hsame : (Expand cs).isOk = (parseExpand cs 0 [] [] false).isOk := by
    unfold Expand
    rcases h : parseExpand cs 0 [] [] false with e | parts <;>
      simp [h, except_isOk_ok, except_isOk_error]
  rw [hsame]
  constructor
  · exact fun h => parse_ok_wb cs.length cs (le_refl _) 0 [] [] h
  · exact fun h => wb_parse_ok h 0 [] []

/-! ### C7: the phrase iterator -/

/-- Number of Letter tokens in a segment. -/
def letterCount (seg : List Token) : Nat := seg.countP (fun t => t.letter)

theorem concatTexts_append (a b : List Token) :
    concatTexts (a ++ b) = concatTexts a ++ concatTexts b := by
  simp [concatTexts]

theorem concatTexts_ne_nil {seg : List Token} (h : seg ≠ [])
    (hall : ∀ t ∈ seg, t.text ≠ []) : concatTexts seg ≠ [] := by
  cases seg with
  | nil => exact absurd rfl h
  | cons x xs =>
    have hx : x.text ≠ [] := hall x (by simp)
    simp [concatTexts]
    intro h2
    exact absurd h2 hx

theorem prefix_head {α : Type} {l1 l2 : List α} (h : l1 <+: l2) (hne : l1 ≠ []) :
    l1.head? = l2.head? := by
  obtain ⟨post, rfl⟩ := h
  cases l1 with
  | nil => exact absurd rfl hne
  | cons a t => rfl

/-- Every sequence the window walk emits is the reversal of a nonempty
prefix of the reversed window that ends at a Letter token, contains at
most the budgeted number of Letter tokens, and is followed by the
accumulated suffix. -/
theorem collectSeqs_mem : ∀ (rev : List Token) (k : Nat) (acc r : List Token),
    r ∈ collectSeqs k rev acc →
    ∃ p, p <+: rev ∧ p ≠ [] ∧ (∃ t, p.getLast? = some t ∧ t.letter = true) ∧
      letterCount p ≤ k ∧ r = p.reverse ++ acc := by
  intro rev
  induction rev with
  | nil =>
    intro k acc r h
    cases k <;> simp [collectSeqs] at h
  | cons t rest ih =>
    intro k acc r h
    cases k with
    | zero => simp [collectSeqs] at h
    | succ k =>
      by_cases hl : t.letter = true
      · simp only [collectSeqs, hl, if_pos, List.mem_cons] at h
        rcases h with rfl | h
        · exact ⟨[t], ⟨rest, rfl⟩, by simp, ⟨t, by simp, hl⟩,
            by simp only [letterCount, List.countP_cons, List.countP_nil, hl]; simp, by simp⟩
        · obtain ⟨p, hpre, hpne, hlast, hcount, hr⟩ := ih k (t :: acc) r h
          refine ⟨t :: p, ?_, by simp, ?_, ?_, ?_⟩
          · obtain ⟨post, rfl⟩ := hpre
            exact ⟨post, by simp⟩
          · obtain ⟨t2, hl2, ht2⟩ := hlast
            cases p with
            | nil => exact absurd rfl hpne
            | cons x xs => exact ⟨t2, by simpa using hl2, ht2⟩
          · simp only [letterCount, List.countP_cons, hl, if_pos]
            simp only [letterCount] at hcount
            omega
          · rw [hr]
            simp
      · have hl2 : t.letter = false := by simpa using hl
        simp only [collectSeqs, hl2, Bool.false_eq_true, if_false] at h
        obtain ⟨p, hpre, hpne, hlast, hcount, hr⟩ := ih (k + 1) (t :: acc) r h
        refine ⟨t :: p, ?_, by simp, ?_, ?_, ?_⟩
        · obtain ⟨post, rfl⟩ := hpre
          exact ⟨post, by simp⟩
        · obtain ⟨t2, hlp, ht2⟩ := hlast
          cases p with
          | nil => exact absurd rfl hpne
          | cons x xs => exact ⟨t2, by simpa using hlp, ht2⟩
        · simp only [letterCount, List.countP_cons, hl2]
          simpa [letterCount] using hcount
        · rw [hr]
          simp

/-- The first sequence emitted after a Letter token is pushed is that
token alone. -/
theorem collectSeqs_head (k : Nat) (t : Token) (rest acc : List Token)
    (hl : t.letter = true) :
    (collectSeqs (k + 1) (t :: rest) acc).head? = some (t :: acc) := by
  simp [collectSeqs, hl]

/-- Consecutive emitted sequences extend leftward: each concatenation is a
strict suffix of the next. -/
theorem collectSeqs_chainTexts : ∀ (rev : List Token) (k : Nat) (acc : List Token),
    (∀ t ∈ rev, t.text ≠ []) →
    List.Chain'
      (fun a b => concatTexts a <:+ concatTexts b ∧
        (concatTexts a).length < (concatTexts b).length)
      (collectSeqs k rev acc) := by
  intro rev
  induction rev with
  | nil => intro k acc _; cases k <;> simp [collectSeqs]
  | cons t rest ih =>
    intro k acc hne
    have hnerest : ∀ t2 ∈ rest, t2.text ≠ [] := fun t2 ht2 => hne t2 (by simp [ht2])
    cases k with
    | zero => simp [collectSeqs]
    | succ k =>
      by_cases hl : t.letter = true
      · simp only [collectSeqs, hl, if_pos]
        rw [List.chain'_cons']
        refine ⟨?_, ih k (t :: acc) hnerest⟩
        intro b hb
        have hbmem : b ∈ collectSeqs k rest (t :: acc) := List.mem_of_mem_head? hb
        obtain ⟨p, hpre, hpne, _, _, hr⟩ := collectSeqs_mem rest k (t :: acc) b hbmem
        have hext : concatTexts p.reverse ≠ [] := by
          refine concatTexts_ne_nil (by simpa using hpne) ?_
          intro t2 ht2
          have : t2 ∈ rest := hpre.subset (by simpa using ht2)
          exact hnerest t2 this
        rw [hr, concatTexts_append]
        constructor
        · exact List.suffix_append _ _
        · have : 0 < (concatTexts p.reverse).length := List.length_pos.mpr hext
          simp only [List.length_append]
          omega
      · have hl2 : t.letter = false := by simpa using hl
        simp only [collectSeqs, hl2, Bool.false_eq_true, if_false]
        exact ih (k + 1) (t :: acc) hnerest

/-- A pushed window always ends with the pushed token (for positive
capacity). -/
theorem pushWindow_ends (cap : Nat) (win : List Token) (t : Token) (h : 0 < cap) :
    ∃ w2, pushWindow cap win t = w2 ++ [t] := by
  unfold pushWindow
  split
  · exact ⟨win, rfl⟩
  · rename_i hge
    cases win with
    | nil => simp at hge; omega
    | cons x xs => exact ⟨xs, by simp⟩

/-- A pushed window is a suffix of the tokens seen so far. -/
theorem pushWindow_suffix {cap : Nat} {win done : List Token} (t : Token)
    (h : win <:+ done) : pushWindow cap win t <:+ done ++ [t] := by
  unfold pushWindow
  split
  · obtain ⟨pre, rfl⟩ := h
    exact ⟨pre, by simp⟩
  · have h1 : (win ++ [t]).drop 1 <:+ win ++ [t] := List.drop_suffix 1 (win ++ [t])
    refine h1.trans ?_
    obtain ⟨pre, rfl⟩ := h
    exact ⟨pre, by simp⟩

/-- Main invariant of the iterator loop: every block is triggered by a
Letter token, yields that token alone first, yields only concatenations of
nonempty window segments with at most k Letter tokens ending at a Letter
token, and yields them shortest first, each a strict suffix of the
next. -/
theorem iterSteps_spec (k : Nat) (hk : 0 < k) (toks : List Token)
    (hne : ∀ t ∈ toks, t.text ≠ []) :
    ∀ (ts win done : List Token), done ++ ts = toks → win <:+ done →
    ∀ tb ∈ iterSteps k ts win,
      tb.1.letter = true ∧
      tb.2.head? = some tb.1.text ∧
      (∀ y ∈ tb.2, ∃ seg : List Token, seg ≠ [] ∧ seg <:+: toks ∧
        letterCount seg ≤ k ∧ (∃ t2, seg.getLast? = some t2 ∧ t2.letter = true) ∧
        y = concatTexts seg) ∧
      List.Chain' (fun a b => a <:+ b ∧ a.length < b.length) tb.2 := by
  intro ts
  induction ts with
  | nil => intro win done _ _ tb htb; simp [iterSteps] at htb
  | cons t ts ih =>
    intro win done hdone hwin tb htb
    have hw : pushWindow (k * 4) win t <:+ done ++ [t] := pushWindow_suffix t hwin
    have hdone2 : (done ++ [t]) ++ ts = toks := by
      rw [← hdone]; simp
    have hwtoks : pushWindow (k * 4) win t <:+: toks := by
      refine (hw.isInfix).trans ?_
      rw [← hdone2]
      exact (List.prefix_append (done ++ [t]) ts).isInfix
    by_cases hl : t.letter = true
    · simp only [iterSteps, hl, if_pos, List.mem_cons] at htb
      rcases htb with rfl | htb
      · obtain ⟨w2, hw2⟩ := pushWindow_ends (k * 4) win t (by omega)
        have hrev : (pushWindow (k * 4) win t).reverse = t :: w2.reverse := by
          rw [hw2]; simp
        obtain ⟨k2, rfl⟩ : ∃ k2, k = k2 + 1 := ⟨k - 1, by omega⟩
        refine ⟨hl, ?_, ?_, ?_⟩
        · show (stepYields (k2 + 1) (pushWindow ((k2 + 1) * 4) win t)).head? = some t.text
          unfold stepYields
          rw [List.head?_map, hrev, collectSeqs_head k2 t w2.reverse [] hl]
          simp [concatTexts]
        · intro y hy
          unfold stepYields at hy
          obtain ⟨r, hr, rfl⟩ := List.mem_map.mp hy
          obtain ⟨p, hpre, hpne, hlast, hcount, hrp⟩ :=
            collectSeqs_mem _ _ _ r hr
          have hsufw : p.reverse <:+ pushWindow ((k2 + 1) * 4) win t := by
            rw [← List.reverse_prefix] at *
            simpa using hpre
          refine ⟨p.reverse, by simpa using hpne, hsufw.isInfix.trans hwtoks, ?_, ?_, ?_⟩
          · simpa [letterCount] using hcount
          · refine ⟨t, ?_, hl⟩
            rw [List.getLast?_reverse]
            have := prefix_head hpre hpne
            rw [this, hrev]
            rfl
          · rw [hrp]; simp
        · have hnewin : ∀ t2 ∈ (pushWindow ((k2 + 1) * 4) win t).reverse, t2.text ≠ [] := by
            intro t2 ht2
            have h2 : t2 ∈ pushWindow ((k2 + 1) * 4) win t := by simpa using ht2
            exact hne t2 (hwtoks.subset h2)
          unfold stepYields
          rw [List.chain'_map]
          exact collectSeqs_chainTexts _ _ [] hnewin
      · exact ih (pushWindow (k * 4) win t) (done ++ [t]) hdone2 hw tb htb
    · simp only [iterSteps, hl, Bool.false_eq_true, if_false] at htb
      exact ih (pushWindow (k * 4) win t) (done ++ [t]) hdone2 hw tb htb

theorem tokGo_texts_ne : ∀ (cs : Strn) (cls : Bool) (acc : Strn), acc ≠ [] →
    ∀ t ∈ tokGo cls acc cs, t.text ≠ [] := by
  intro cs
  induction cs with
  | nil =>
    intro cls acc hacc t ht
    simp only [tokGo, List.mem_singleton] at ht
    subst ht
    simpa using hacc
  | cons c cs ih =>
    intro cls acc hacc t ht
    simp only [tokGo] at ht
    split at ht
    · exact ih cls (c :: acc) (by simp) t ht
    · rcases List.mem_cons.mp ht with rfl | ht2
      · simpa using hacc
      · exact ih c.isAlpha [c] (by simp) t ht2

/-- Every token the segmenter model produces has nonempty text. -/
theorem tokenize_texts_ne (s : Strn) : ∀ t ∈ tokenize s, t.text ≠ [] := by
  cases s with
  | nil => intro t ht; simp [tokenize] at ht
  | cons c cs => exact tokGo_texts_ne cs c.isAlpha [c] (by simp)

/-- C7: for every input, the iterator with window size 3 yields only
concatenations of contiguous token segments containing at most 3 Letter
tokens and ending at a Letter token (separators preserved); moreover, each
time a Letter token is encountered the block of yields starts with that
token alone, with subsequent yields extending leftward: each yield is a
strict suffix of the next. -/
theorem phraseIterator_window (s : Strn) :
    (∀ y ∈ PhraseIterator s 3, ∃ seg : List Token, seg ≠ [] ∧ seg <:+: tokenize s ∧
      letterCount seg ≤ 3 ∧ (∃ t, seg.getLast? = some t ∧ t.letter = true) ∧
      y = concatTexts seg) ∧
    (∀ tb ∈ yieldBlocks 3 (tokenize s), tb.1.letter = true ∧
      tb.2.head? = some tb.1.text ∧
      List.Chain' (fun a b => a <:+ b ∧ a.length < b.length) tb.2) := by
  have hspec := iterSteps_spec 3 (by omega) (tokenize s) (tokenize_texts_ne s)
    (tokenize s) [] [] (by simp) (by simp)
  constructor
  · intro y hy
    unfold PhraseIterator phraseYields at hy
    rw [List.mem_flatten] at hy
    obtain ⟨blk, hblk, hyblk⟩ := hy
    obtain ⟨tb, htb, rfl⟩ := List.mem_map.mp hblk
    exact (hspec tb htb).2.2.1 y hyblk
  · intro tb htb
    obtain ⟨h1, h2, _, h4⟩ := hspec tb htb
    exact ⟨h1, h2, h4⟩

/-- Closed witness for the iterator theorem at a concrete input. -/
theorem phraseIterator_window_witness :
    ("ab cd".toList ∈ PhraseIterator "ab cd".toList 3 ∧
      ∃ seg : List Token, seg ≠ [] ∧ seg <:+: tokenize "ab cd".toList ∧
        letterCount seg ≤ 3 ∧ (∃ t, seg.getLast? = some t ∧ t.letter = true) ∧
        "ab cd".toList = concatTexts seg) ∧
    ((⟨"cd".toList, true⟩, ["cd".toList, "ab cd".toList]) ∈
        yieldBlocks 3 (tokenize "ab cd".toList) ∧
      (⟨"cd".toList, true⟩ : Token).letter = true ∧
      ["cd".toList, "ab cd".toList].head? = some "cd".toList ∧
      List.Chain' (fun a b : Strn => a <:+ b ∧ a.length < b.length)
        ["cd".toList, "ab cd".toList]) := by
  constructor
  · exact ⟨by decide, (phraseIterator_window "ab cd".toList).1 "ab cd".toList (by decide)⟩
  · refine ⟨by decide, ?_⟩
    exact (phraseIterator_window "ab cd".toList).2 (⟨"cd".toList, true⟩,
      ["cd".toList, "ab cd".toList]) (by decide)

/-! ### Pointwise lemmas about the trie and base-checker models -/

theorem trieGet_put (t : Trie) (k : Strn) (v : Phrase) :
    ∀ x, trieGet (triePut t k v) x = if x = k then some v else trieGet t x := by
  induction t with
  | nil =>
    intro x
    by_cases h : x = k
    · subst h; simp [triePut, trieGet]
    · have h2 : ¬(k = x) := fun hh => h hh.symm
      simp [triePut, trieGet, h, h2]
  | cons e rest ih =>
    intro x
    by_cases he : e.1 = k
    · simp only [triePut, if_pos he]
      by_cases hx : x = k
      · subst hx; simp [trieGet]
      · have hkx : ¬(k = x) := fun hh => hx hh.symm
        have hex : ¬(e.1 = x) := fun hh => hx (he.symm.trans hh).symm
        simp [trieGet, hkx, hx, hex]
    · simp only [triePut, if_neg he, trieGet]
      by_cases hex : e.1 = x
      · have hxk : ¬(x = k) := fun hh => he (hex.trans hh)
        simp [hex, hxk]
      · simp only [if_neg hex]
        rw [ih x]

theorem trieGet_delete (t : Trie) (k : Strn) :
    ∀ x, trieGet (trieDelete t k) x = if x = k then none else trieGet t x := by
  induction t with
  | nil => intro x; simp [trieDelete, trieGet]
  | cons e rest ih =>
    intro x
    show trieGet (List.filter (fun e => decide (e.1 ≠ k)) (e :: rest)) x = _
    rw [List.filter_cons]
    have h2 := ih x
    simp only [trieDelete] at h2
    by_cases he : e.1 = k
    · rw [if_neg (by simp [he])]
      rw [h2]
      by_cases hx : x = k
      · simp [hx]
      · have hex : ¬(e.1 = x) := fun hh => hx (he.symm.trans hh).symm
        simp [trieGet, hex, hx]
    · rw [if_pos (by simp [he])]
      simp only [trieGet]
      by_cases hex : e.1 = x
      · have hxk : ¬(x = k) := fun hh => he (hex.trans hh)
        simp [hex, hxk]
      · simp only [if_neg hex]
        rw [h2]

theorem trieGet_none_iff (t : Trie) (k : Strn) :
    trieGet t k = none ↔ ∀ e ∈ t, e.1 ≠ k := by
  induction t with
  | nil => simp [trieGet]
  | cons e rest ih =>
    by_cases he : e.1 = k
    · simp only [trieGet, if_pos he]
      constructor
      · intro h; simp at h
      · intro h; exact absurd he (h e (by simp))
    · simp only [trieGet, if_neg he, ih]
      constructor
      · intro h e2 he2
        rcases List.mem_cons.mp he2 with rfl | he3
        · exact he
        · exact h e2 he3
      · intro h e2 he2
        exact h e2 (List.mem_cons_of_mem e he2)

theorem trieGet_foldl_put (q : Phrase) :
    ∀ (L : List Strn) (t : Trie) (x : Strn),
      trieGet (L.foldl (fun m kk => triePut m kk q) t) x =
        if x ∈ L then some q else trieGet t x := by
  intro L
  induction L with
  | nil => intro t x; simp
  | cons k L ih =>
    intro t x
    simp only [List.foldl_cons]
    rw [ih (triePut t k q) x, trieGet_put t k q x]
    by_cases h1 : x ∈ L
    · simp [h1]
    · by_cases h2 : x = k
      · simp [h1, h2]
      · simp [h1, h2]

theorem trieGet_foldl_delete :
    ∀ (L : List Strn) (t : Trie) (x : Strn),
      trieGet (L.foldl trieDelete t) x = if x ∈ L then none else trieGet t x := by
  intro L
  induction L with
  | nil => intro t x; simp
  | cons k L ih =>
    intro t x
    simp only [List.foldl_cons]
    rw [ih (trieDelete t k) x, trieGet_delete t k x]
    by_cases h1 : x ∈ L
    · simp [h1]
    · by_cases h2 : x = k
      · simp [h1, h2]
      · simp [h1, h2]

theorem hunSpell_add (ws : List Strn) (w : Strn) :
    ∀ x, hunSpell (hunAdd ws w) x = (x = w || hunSpell ws x) := by
  intro x
  unfold hunAdd hunSpell
  split
  · rename_i hc
    have hc2 : w ∈ ws := by simpa using hc
    by_cases hx : x = w
    · subst hx; simp [hc2]
    · simp [hx]
  · by_cases hx : x = w
    · subst hx; simp
    · simp [hx]

theorem hunSpell_remove (ws : List Strn) (w : Strn) :
    ∀ x, hunSpell (hunRemove ws w) x = (decide (x ≠ w) && hunSpell ws x) := by
  intro x
  unfold hunRemove hunSpell
  by_cases hx : x = w
  · subst hx; simp [List.mem_filter]
  · simp [List.mem_filter, hx]

theorem hunSpell_foldl_add :
    ∀ (L : List Strn) (ws : List Strn) (x : Strn),
      hunSpell (L.foldl hunAdd ws) x = (x ∈ L || hunSpell ws x) := by
  intro L
  induction L with
  | nil => intro ws x; simp
  | cons k L ih =>
    intro ws x
    simp only [List.foldl_cons]
    rw [ih (hunAdd ws k) x, hunSpell_add ws k x]
    by_cases h1 : x ∈ L
    · simp [h1]
    · by_cases h2 : x = k
      · simp [h1, h2]
      · simp [h1, h2]

theorem hunSpell_foldl_remove :
    ∀ (L : List Strn) (ws : List Strn) (x : Strn),
      hunSpell (L.foldl hunRemove ws) x = (decide (x ∉ L) && hunSpell ws x) := by
  intro L
  induction L with
  | nil => intro ws x; simp
  | cons k L ih =>
    intro ws x
    simp only [List.foldl_cons]
    rw [ih (hunRemove ws k) x, hunSpell_remove ws k x]
    by_cases h1 : x ∈ L
    · simp [h1]
    · by_cases h2 : x = k
      · simp [h1, h2]
      · simp [h1, h2]

/-! ### Component projections of the forms loops -/

theorem addFormsFold_proj (q : Phrase) :
    ∀ (forms : List (Strn × Strn)) (s : LanguageState),
      (forms.foldl (addFormEntry q) s).valid =
        (forms.map Prod.snd).foldl (fun v kk => triePut v kk q) s.valid ∧
      (forms.foldl (addFormEntry q) s).hun = (forms.map Prod.snd).foldl hunAdd s.hun ∧
      (forms.foldl (addFormEntry q) s).mistakes =
        (forms.map Prod.fst).foldl (fun m kk => triePut m kk q) s.mistakes ∧
      (forms.foldl (addFormEntry q) s).hunSuggest = s.hunSuggest := by
  intro forms
  induction forms with
  | nil => intro s; exact ⟨rfl, rfl, rfl, rfl⟩
  | cons fc rest ih =>
    intro s
    simp only [List.foldl_cons, List.map_cons]
    exact ih (addFormEntry q s fc)

theorem removeFormsFold_proj :
    ∀ (forms : List (Strn × Strn)) (s : LanguageState),
      (forms.foldl removeFormEntry s).valid =
        (forms.map Prod.snd).foldl trieDelete s.valid ∧
      (forms.foldl removeFormEntry s).hun = (forms.map Prod.snd).foldl hunRemove s.hun ∧
      (forms.foldl removeFormEntry s).mistakes =
        (forms.map Prod.fst).foldl trieDelete s.mistakes ∧
      (forms.foldl removeFormEntry s).hunSuggest = s.hunSuggest := by
  intro forms
  induction forms with
  | nil => intro s; exact ⟨rfl, rfl, rfl, rfl⟩
  | cons fc rest ih =>
    intro s
    simp only [List.foldl_cons, List.map_cons]
    exact ih (removeFormEntry s fc)

/-! ### Lookup characterisations of AddPhrase and the cleanup pass -/

theorem addPhrase_valid_self (p : Phrase) (st : LanguageState) :
    trieGet (addPhrase p st).valid p.text = some (addedPhrase p) := by
  unfold addPhrase
  obtain ⟨hv, _, _, _⟩ := addFormsFold_proj (addedPhrase p) p.forms _
  rw [hv, trieGet_foldl_put, trieGet_put]
  by_cases h1 : p.text ∈ p.forms.map Prod.snd
  · simp [h1]
  · simp [h1]

theorem addPhrase_mistakes_get (p : Phrase) (st : LanguageState) :
    ∀ x, trieGet (addPhrase p st).mistakes x =
      if x ∈ expandAll p.commonMistakes ++ p.forms.map Prod.fst then some (addedPhrase p)
      else
        trieGet
          (match trieGet st.valid p.text with
           | some old => cleanupOld old st
           | none => st).mistakes x := by
  intro x
  unfold addPhrase
  obtain ⟨_, _, hm, _⟩ := addFormsFold_proj (addedPhrase p) p.forms _
  rw [hm, trieGet_foldl_put, trieGet_foldl_put]
  simp only [addedPhrase, List.mem_append]
  by_cases h1 : x ∈ p.forms.map Prod.fst
  · simp [h1]
  · by_cases h2 : x ∈ expandAll p.commonMistakes
    · simp [h1, h2]
    · simp [h1, h2]

theorem cleanupOld_mistakes_get (old : Phrase) (st : LanguageState) :
    ∀ x, trieGet (cleanupOld old st).mistakes x =
      if x ∈ old.commonMistakes ++ old.forms.map Prod.fst then none
      else trieGet st.mistakes x := by
  intro x
  unfold cleanupOld
  obtain ⟨_, _, hm, _⟩ := removeFormsFold_proj old.forms _
  rw [hm, trieGet_foldl_delete, trieGet_foldl_delete]
  simp only [List.mem_append]
  by_cases h1 : x ∈ old.forms.map Prod.fst
  · simp [h1]
  · by_cases h2 : x ∈ old.commonMistakes
    · simp [h1, h2]
    · simp [h1, h2]

/-! ### Overlay-loop invariants -/

/-- Every entry of the overlay loop was emitted on a mistake-trie hit for
its surface text. -/
theorem overlayFold_entries_hit (b : Bool) (st : LanguageState) (l : List Strn) :
    ∀ e ∈ (l.foldl (overlayStep b) (⟨[], []⟩, st)).1.entries,
      (trieGet st.mistakes e.text).isSome = true := by
  have h := foldlInv (overlayStep b)
    (fun a : OverAcc × LanguageState =>
      a.2 = st ∧ ∀ e ∈ a.1.entries, (trieGet st.mistakes e.text).isSome = true)
    ?_ l (⟨[], []⟩, st) ⟨rfl, by intro e he; simp at he⟩
  · exact h.2
  · intro a y ha
    obtain ⟨hst, hent⟩ := ha
    refine ⟨(overlayStep_snd b a y).trans hst, ?_⟩
    unfold overlayStep
    dsimp only
    rcases hmy : trieGet a.2.mistakes y with _ | p <;> simp only [hmy]
    · exact hent
    · split
      · exact hent
      · intro e he
        simp only [List.mem_append, List.mem_singleton] at he
        rcases he with he | he
        · exact hent e he
        · rw [he]
          show (trieGet st.mistakes (overlayEntry b p y).text).isSome = true
          have : (overlayEntry b p y).text = y := rfl
          rw [this, ← hst, hmy]
          rfl

/-! ### C3: re-adding an entry replaces its stale mistakes -/

/-- C3: AddPhrase of a phrase whose text already has a stored phrase
removes every key derived from the old phrase before inserting the new
ones; consequently, after a re-add with mistake set C2 replacing C1, a
mistake of C1 not in C2 — provided it is not reintroduced as a forms key
of the new phrase — is no longer in the mistake trie and no custom entry
is emitted for it by the overlay pass of Check on any input. -/
theorem readd_no_stale (st0 : LanguageState) (p1 p2 : Phrase) (m : Strn)
    (htext : p2.text = p1.text)
    (hm1 : m ∈ expandAll p1.commonMistakes)
    (hm2 : m ∉ expandAll p2.commonMistakes)
    (hmf : m ∉ p2.forms.map Prod.fst) :
    trieGet (addPhrase p2 (addPhrase p1 st0)).mistakes m = none ∧
    ∀ (text : Strn) (b : Bool),
      ∀ e ∈ ((PhraseIterator text 3).foldl (overlayStep b)
          (⟨[], []⟩, addPhrase p2 (addPhrase p1 st0))).1.entries,
        e.text ≠ m := by
  have hnone : trieGet (addPhrase p2 (addPhrase p1 st0)).mistakes m = none := by
    rw [addPhrase_mistakes_get p2 (addPhrase p1 st0) m]
    rw [if_neg (by
      simp only [List.mem_append]
      rintro (h | h)
      · exact hm2 h
      · exact hmf h)]
    rw [htext, addPhrase_valid_self p1 st0]
    rw [cleanupOld_mistakes_get (addedPhrase p1) (addPhrase p1 st0) m]
    rw [if_pos (by
      simp only [List.mem_append]
      left
      show m ∈ (addedPhrase p1).commonMistakes
      exact hm1)]
  refine ⟨hnone, ?_⟩
  intro text b e he hm
  have := overlayFold_entries_hit b (addPhrase p2 (addPhrase p1 st0)) (PhraseIterator text 3) e he
  rw [hm, hnone] at this
  simp at this

/-- Closed witness for the re-add theorem. -/
theorem readd_no_stale_witness :
    (("x2".toList : Strn) = "x2".toList ∧
      "m2".toList ∈ expandAll ["m2".toList] ∧
      "m2".toList ∉ expandAll ([] : List Strn) ∧
      "m2".toList ∉ ([] : List (Strn × Strn)).map Prod.fst) ∧
    trieGet (addPhrase ⟨"x2".toList, [], [], .error, []⟩
        (addPhrase ⟨"x2".toList, [], ["m2".toList], .error, []⟩
          (emptyState [] (fun _ => [])))).mistakes "m2".toList = none := by
  refine ⟨⟨rfl, by decide, by decide, by decide⟩, ?_⟩
  exact (readd_no_stale (emptyState [] (fun _ => []))
    ⟨"x2".toList, [], ["m2".toList], .error, []⟩
    ⟨"x2".toList, [], [], .error, []⟩ "m2".toList rfl (by decide) (by decide) (by decide)).1

/-- Counterexample to C3 as stated: when the re-added phrase lists the old
mistake among its forms keys, the mistake is still matched and still
reported by Check with a suggestion. -/
theorem readd_stale_forms_counterexample :
    ("m".toList ∈ expandAll ["m".toList] ∧
      "m".toList ∉ expandAll ([] : List Strn)) ∧
    trieGet (addPhrase ⟨"x".toList, [], [], .error, [("m".toList, "y".toList)]⟩
        (addPhrase ⟨"x".toList, [], ["m".toList], .error, []⟩
          (emptyState [] (fun _ => [])))).mistakes "m".toList ≠ none ∧
    (check (addPhrase ⟨"x".toList, [], [], .error, [("m".toList, "y".toList)]⟩
        (addPhrase ⟨"x".toList, [], ["m".toList], .error, []⟩
          (emptyState [] (fun _ => [])))) "m".toList true).1.entries.map
      MisspelledEntry.text = ["m".toList] := by
  refine ⟨⟨by decide, by decide⟩, by decide, by decide⟩

/-! ### Shape lemmas for the add and remove folds -/

theorem put_fresh_append (t : Trie) (k : Strn) (v : Phrase) (h : trieGet t k = none) :
    triePut t k v = t ++ [(k, v)] := by
  induction t with
  | nil => rfl
  | cons e rest ih =>
    simp only [trieGet] at h
    by_cases he : e.1 = k
    · simp [he] at h
    · simp only [if_neg he] at h
      simp only [triePut, if_neg he, List.cons_append]
      rw [ih h]

theorem triePut_append_left (t b : Trie) (k : Strn) (v : Phrase) (h : trieGet t k = none) :
    triePut (t ++ b) k v = t ++ triePut b k v := by
  induction t with
  | nil => rfl
  | cons e rest ih =>
    simp only [trieGet] at h
    by_cases he : e.1 = k
    · simp [he] at h
    · simp only [if_neg he] at h
      simp only [List.cons_append, triePut, if_neg he, List.append_eq]
      rw [ih h]

theorem triePut_keys (b : Trie) (k : Strn) (v : Phrase) :
    ∀ e ∈ triePut b k v, e.1 = k ∨ e.1 ∈ b.map Prod.fst := by
  induction b with
  | nil =>
    intro e he
    simp only [triePut, List.mem_singleton] at he
    subst he
    left
    rfl
  | cons e2 rest ih =>
    intro e he
    by_cases h2 : e2.1 = k
    · simp only [triePut, if_pos h2, List.mem_cons] at he
      rcases he with rfl | he
      · left; rfl
      · right
        simp only [List.map_cons, List.mem_cons]
        right
        exact List.mem_map.mpr ⟨e, he, rfl⟩
    · simp only [triePut, if_neg h2, List.mem_cons] at he
      rcases he with rfl | he
      · right
        exact List.mem_map.mpr ⟨e, List.mem_cons_self e rest, rfl⟩
      · rcases ih e he with h | h
        · left; exact h
        · right
          simp only [List.map_cons, List.mem_cons]
          right
          exact h

theorem foldl_put_shape (q : Phrase) (S : List Strn) :
    ∀ (L : List Strn), (∀ kk ∈ L, kk ∈ S) →
    ∀ (t ex : Trie), (∀ kk ∈ S, trieGet t kk = none) → (∀ e ∈ ex, e.1 ∈ S) →
    ∃ ex2 : Trie, L.foldl (fun m kk => triePut m kk q) (t ++ ex) = t ++ ex2 ∧
      ∀ e ∈ ex2, e.1 ∈ S := by
  intro L
  induction L with
  | nil => intro _ t ex _ hex; exact ⟨ex, rfl, hex⟩
  | cons k L ih =>
    intro hL t ex ht hex
    simp only [List.foldl_cons]
    have hk : k ∈ S := hL k (by simp)
    rw [triePut_append_left t ex k q (ht k hk)]
    refine ih (fun kk hkk => hL kk (by simp [hkk])) t (triePut ex k q) ht ?_
    intro e he
    rcases triePut_keys ex k q e he with h | h
    · rw [h]; exact hk
    · obtain ⟨e2, he2, heq⟩ := List.mem_map.mp h
      rw [← heq]
      exact hex e2 he2

theorem foldl_delete_filter :
    ∀ (L : List Strn) (t : Trie),
      L.foldl trieDelete t = t.filter (fun e => decide (e.1 ∉ L)) := by
  intro L
  induction L with
  | nil => intro t; simp
  | cons k L ih =>
    intro t
    simp only [List.foldl_cons]
    rw [ih (trieDelete t k)]
    unfold trieDelete
    rw [List.filter_filter]
    apply List.filter_congr
    intro e _
    by_cases hk : e.1 = k
    · simp [hk]
    · by_cases hL : e.1 ∈ L <;> simp [hk, hL]

theorem hunAdd_append_left (ws ex : List Strn) (w : Strn) (h : w ∉ ws) :
    hunAdd (ws ++ ex) w = ws ++ hunAdd ex w := by
  unfold hunAdd
  have hca : ((ws ++ ex).contains w) = (ex.contains w) := by
    by_cases hc : w ∈ ex
    · simp [hc]
    · simp [hc, h]
  rw [hca]
  by_cases hc : w ∈ ex
  · simp [hc]
  · simp [hc, List.append_assoc]

theorem hunAdd_mem (ex : List Strn) (w : Strn) :
    ∀ x ∈ hunAdd ex w, x ∈ ex ∨ x = w := by
  intro x hx
  unfold hunAdd at hx
  split at hx
  · exact Or.inl hx
  · simp only [List.mem_append, List.mem_singleton] at hx
    exact hx

theorem foldl_hunAdd_shape (S : List Strn) :
    ∀ (L : List Strn), (∀ kk ∈ L, kk ∈ S) →
    ∀ (ws ex : List Strn), (∀ kk ∈ S, kk ∉ ws) → (∀ x ∈ ex, x ∈ S) →
    ∃ ex2 : List Strn, L.foldl hunAdd (ws ++ ex) = ws ++ ex2 ∧ ∀ x ∈ ex2, x ∈ S := by
  intro L
  induction L with
  | nil => intro _ ws ex _ hex; exact ⟨ex, rfl, hex⟩
  | cons k L ih =>
    intro hL ws ex hws hex
    simp only [List.foldl_cons]
    have hk : k ∈ S := hL k (by simp)
    rw [hunAdd_append_left ws ex k (hws k hk)]
    refine ih (fun kk hkk => hL kk (by simp [hkk])) ws (hunAdd ex k) hws ?_
    intro x hx
    rcases hunAdd_mem ex k x hx with h | h
    · exact hex x h
    · rw [h]; exact hk

theorem foldl_hunRemove_filter :
    ∀ (L : List Strn) (ws : List Strn),
      L.foldl hunRemove ws = ws.filter (fun x => decide (x ∉ L)) := by
  intro L
  induction L with
  | nil => intro ws; simp
  | cons k L ih =>
    intro ws
    simp only [List.foldl_cons]
    rw [ih (hunRemove ws k)]
    unfold hunRemove
    rw [List.filter_filter]
    apply List.filter_congr
    intro x _
    by_cases hk : x = k
    · simp [hk]
    · by_cases hL : x ∈ L <;> simp [hk, hL]

/-! ### Component equations for AddPhrase and RemovePhrase -/

theorem LanguageState.extEq {a b : LanguageState} (h1 : a.valid = b.valid)
    (h2 : a.mistakes = b.mistakes) (h3 : a.hun = b.hun) (h4 : a.hunSuggest = b.hunSuggest) :
    a = b := by
  cases a
  cases b
  congr 1

theorem addPhrase_valid_eq (p : Phrase) (st0 : LanguageState)
    (h1 : trieGet st0.valid p.text = none) :
    (addPhrase p st0).valid =
      (p.forms.map Prod.snd).foldl (fun v kk => triePut v kk (addedPhrase p))
        (triePut st0.valid p.text (addedPhrase p)) := by
  unfold addPhrase
  rw [h1]
  exact (addFormsFold_proj (addedPhrase p) p.forms _).1

theorem addPhrase_hun_eq (p : Phrase) (st0 : LanguageState)
    (h1 : trieGet st0.valid p.text = none) :
    (addPhrase p st0).hun =
      (p.forms.map Prod.snd).foldl hunAdd (hunAdd st0.hun p.text) := by
  unfold addPhrase
  rw [h1]
  exact (addFormsFold_proj (addedPhrase p) p.forms _).2.1

theorem addPhrase_mistakes_eq (p : Phrase) (st0 : LanguageState)
    (h1 : trieGet st0.valid p.text = none) :
    (addPhrase p st0).mistakes =
      (p.forms.map Prod.fst).foldl (fun m kk => triePut m kk (addedPhrase p))
        ((expandAll p.commonMistakes).foldl
          (fun m kk => triePut m kk (addedPhrase p)) st0.mistakes) := by
  unfold addPhrase
  rw [h1]
  exact (addFormsFold_proj (addedPhrase p) p.forms _).2.2.1

theorem addPhrase_hunSuggest_eq (p : Phrase) (st0 : LanguageState)
    (h1 : trieGet st0.valid p.text = none) :
    (addPhrase p st0).hunSuggest = st0.hunSuggest := by
  unfold addPhrase
  rw [h1]
  exact (addFormsFold_proj (addedPhrase p) p.forms _).2.2.2

theorem removePhrase_valid_eq (st : LanguageState) (q : Phrase) (text : Strn)
    (hself : trieGet st.valid text = some q) :
    (removePhrase text st).valid =
      (q.forms.map Prod.snd).foldl trieDelete (trieDelete st.valid text) := by
  unfold removePhrase
  rw [hself]
  exact (removeFormsFold_proj q.forms _).1

theorem removePhrase_hun_eq (st : LanguageState) (q : Phrase) (text : Strn)
    (hself : trieGet st.valid text = some q) :
    (removePhrase text st).hun =
      (q.forms.map Prod.snd).foldl hunRemove (hunRemove st.hun text) := by
  unfold removePhrase
  rw [hself]
  exact (removeFormsFold_proj q.forms _).2.1

theorem removePhrase_mistakes_eq (st : LanguageState) (q : Phrase) (text : Strn)
    (hself : trieGet st.valid text = some q) :
    (removePhrase text st).mistakes =
      (q.forms.map Prod.fst).foldl trieDelete
        (q.commonMistakes.foldl trieDelete st.mistakes) := by
  unfold removePhrase
  rw [hself]
  exact (removeFormsFold_proj q.forms _).2.2.1

theorem removePhrase_hunSuggest_eq (st : LanguageState) (q : Phrase) (text : Strn)
    (hself : trieGet st.valid text = some q) :
    (removePhrase text st).hunSuggest = st.hunSuggest := by
  unfold removePhrase
  rw [hself]
  exact (removeFormsFold_proj q.forms _).2.2.2

theorem mem_keys_get_ne_none (t : Trie) (e : Strn × Phrase) (he : e ∈ t) :
    trieGet t e.1 ≠ none := fun h => (trieGet_none_iff t e.1).mp h e he rfl

theorem foldl_put_shape0 (q : Phrase) (S L : List Strn) (hL : ∀ kk ∈ L, kk ∈ S)
    (t : Trie) (ht : ∀ kk ∈ S, trieGet t kk = none) :
    ∃ ex2 : Trie, L.foldl (fun m kk => triePut m kk q) t = t ++ ex2 ∧
      ∀ e ∈ ex2, e.1 ∈ S := by
  have h := foldl_put_shape q S L hL t [] ht (by simp)
  rwa [List.append_nil] at h

theorem hunAdd_not_mem (ws : List Strn) (w : Strn) (h : w ∉ ws) :
    hunAdd ws w = ws ++ [w] := by
  unfold hunAdd
  simp [h]

/-! ### C4: AddPhrase then RemovePhrase restores the state -/

/-- C4 (amended): AddPhrase of a phrase followed by RemovePhrase of its
text restores the LanguageState exactly — both tries, the base-checker
word list and the suggestion oracle — and therefore Check and Suggestions
behave on every input exactly as before the add, provided the inserted
keys were fresh: the text and the corrected forms were in neither the
valid trie nor the base checker, and the expanded mistakes and the forms
keys were not in the mistake trie. -/
theorem add_remove_roundtrip (st0 : LanguageState) (p : Phrase)
    (h1 : trieGet st0.valid p.text = none)
    (h2 : hunSpell st0.hun p.text = false)
    (h3 : ∀ fc ∈ p.forms, trieGet st0.valid fc.2 = none ∧ hunSpell st0.hun fc.2 = false ∧
      trieGet st0.mistakes fc.1 = none)
    (h4 : ∀ m ∈ expandAll p.commonMistakes, trieGet st0.mistakes m = none) :
    removePhrase p.text (addPhrase p st0) = st0 ∧
    (∀ (text : Strn) (b : Bool),
      check (removePhrase p.text (addPhrase p st0)) text b = check st0 text b) ∧
    (∀ text : Strn,
      suggestionsOp (removePhrase p.text (addPhrase p st0)) text = suggestionsOp st0 text) := by
  have hself := addPhrase_valid_self p st0
  have hqforms : (addedPhrase p).forms = p.forms := rfl
  have hqcm : (addedPhrase p).commonMistakes = expandAll p.commonMistakes := rfl
  -- the valid component
  have hvalid : (removePhrase p.text (addPhrase p st0)).valid = st0.valid := by
    rw [removePhrase_valid_eq _ _ _ hself, hqforms,
      addPhrase_valid_eq p st0 h1, put_fresh_append st0.valid p.text (addedPhrase p) h1]
    have hfresh : ∀ kk ∈ p.text :: p.forms.map Prod.snd, trieGet st0.valid kk = none := by
      intro kk hkk
      rcases List.mem_cons.mp hkk with rfl | hkk
      · exact h1
      · obtain ⟨fc, hfc, rfl⟩ := List.mem_map.mp hkk
        exact (h3 fc hfc).1
    obtain ⟨ex2, hex2, hkeys⟩ := foldl_put_shape (addedPhrase p)
      (p.text :: p.forms.map Prod.snd) (p.forms.map Prod.snd)
      (fun kk hkk => List.mem_cons_of_mem _ hkk)
      st0.valid [(p.text, addedPhrase p)] hfresh (by intro e he; simp at he; simp [he])
    rw [hex2]
    have hstep : (p.forms.map Prod.snd).foldl trieDelete
        (trieDelete (st0.valid ++ ex2) p.text) =
        (p.text :: p.forms.map Prod.snd).foldl trieDelete (st0.valid ++ ex2) := rfl
    rw [hstep, foldl_delete_filter, List.filter_append]
    rw [List.filter_eq_self.mpr, List.filter_eq_nil_iff.mpr]
    · simp
    · intro e he
      have : e.1 ∈ p.text :: p.forms.map Prod.snd := hkeys e he
      simp [this]
    · intro e he
      have hne : e.1 ∉ p.text :: p.forms.map Prod.snd := by
        intro hmem
        exact mem_keys_get_ne_none st0.valid e he (hfresh e.1 hmem)
      simp [hne]
  -- the base-checker component
  have hhun : (removePhrase p.text (addPhrase p st0)).hun = st0.hun := by
    have h2m : p.text ∉ st0.hun := by simpa [hunSpell] using h2
    rw [removePhrase_hun_eq _ _ _ hself, hqforms,
      addPhrase_hun_eq p st0 h1, hunAdd_not_mem st0.hun p.text h2m]
    have hfresh : ∀ kk ∈ p.text :: p.forms.map Prod.snd, kk ∉ st0.hun := by
      intro kk hkk
      rcases List.mem_cons.mp hkk with rfl | hkk
      · exact h2m
      · obtain ⟨fc, hfc, rfl⟩ := List.mem_map.mp hkk
        simpa [hunSpell] using (h3 fc hfc).2.1
    obtain ⟨ex2, hex2, hkeys⟩ := foldl_hunAdd_shape
      (p.text :: p.forms.map Prod.snd) (p.forms.map Prod.snd)
      (fun kk hkk => List.mem_cons_of_mem _ hkk)
      st0.hun [p.text] hfresh (by intro x hx; simp at hx; simp [hx])
    rw [hex2]
    have hstep : (p.forms.map Prod.snd).foldl hunRemove
        (hunRemove (st0.hun ++ ex2) p.text) =
        (p.text :: p.forms.map Prod.snd).foldl hunRemove (st0.hun ++ ex2) := rfl
    rw [hstep, foldl_hunRemove_filter, List.filter_append]
    rw [List.filter_eq_self.mpr, List.filter_eq_nil_iff.mpr]
    · simp
    · intro x hx
      have : x ∈ p.text :: p.forms.map Prod.snd := hkeys x hx
      simp [this]
    · intro x hx
      have hne : x ∉ p.text :: p.forms.map Prod.snd := by
        intro hmem
        exact hfresh x hmem hx
      simp [hne]
  -- the mistake-trie component
  have hmist : (removePhrase p.text (addPhrase p st0)).mistakes = st0.mistakes := by
    rw [removePhrase_mistakes_eq _ _ _ hself, hqforms, hqcm,
      addPhrase_mistakes_eq p st0 h1]
    rw [← List.foldl_append (fun m kk => triePut m kk (addedPhrase p)) st0.mistakes
      (expandAll p.commonMistakes) (p.forms.map Prod.fst)]
    have hfresh : ∀ kk ∈ expandAll p.commonMistakes ++ p.forms.map Prod.fst,
        trieGet st0.mistakes kk = none := by
      intro kk hkk
      rcases List.mem_append.mp hkk with hkk | hkk
      · exact h4 kk hkk
      · obtain ⟨fc, hfc, rfl⟩ := List.mem_map.mp hkk
        exact (h3 fc hfc).2.2
    obtain ⟨ex2, hex2, hkeys⟩ := foldl_put_shape0 (addedPhrase p)
      (expandAll p.commonMistakes ++ p.forms.map Prod.fst)
      (expandAll p.commonMistakes ++ p.forms.map Prod.fst)
      (fun kk hkk => hkk) st0.mistakes hfresh
    rw [hex2]
    rw [← List.foldl_append trieDelete (st0.mistakes ++ ex2)
      (expandAll p.commonMistakes) (p.forms.map Prod.fst)]
    rw [foldl_delete_filter, List.filter_append]
    rw [List.filter_eq_self.mpr, List.filter_eq_nil_iff.mpr]
    · simp
    · intro e he
      have : e.1 ∈ expandAll p.commonMistakes ++ p.forms.map Prod.fst := hkeys e he
      simp [this]
    · intro e he
      have hne : e.1 ∉ expandAll p.commonMistakes ++ p.forms.map Prod.fst := by
        intro hmem
        exact mem_keys_get_ne_none st0.mistakes e he (hfresh e.1 hmem)
      simp [hne]
  -- the suggestion oracle
  have hsugg : (removePhrase p.text (addPhrase p st0)).hunSuggest = st0.hunSuggest := by
    rw [removePhrase_hunSuggest_eq _ _ _ hself, addPhrase_hunSuggest_eq p st0 h1]
  have hmain : removePhrase p.text (addPhrase p st0) = st0 :=
    LanguageState.extEq hvalid hmist hhun hsugg
  exact ⟨hmain, fun text b => by rw [hmain], fun text => by rw [hmain]⟩

/-- Closed witness for the roundtrip theorem: a phrase with a form and a
mistake template, added to a disjoint base state, is removed without
trace. -/
theorem add_remove_roundtrip_witness :
    (trieGet (emptyState ["hej".toList] (fun _ => [])).valid "x".toList = none ∧
      hunSpell (emptyState ["hej".toList] (fun _ => [])).hun "x".toList = false) ∧
    removePhrase "x".toList
      (addPhrase ⟨"x".toList, [], ["m".toList], .error, [("f".toList, "y".toList)]⟩
        (emptyState ["hej".toList] (fun _ => []))) =
      emptyState ["hej".toList] (fun _ => []) := by
  refine ⟨⟨by decide, by decide⟩, ?_⟩
  exact (add_remove_roundtrip (emptyState ["hej".toList] (fun _ => []))
    ⟨"x".toList, [], ["m".toList], .error, [("f".toList, "y".toList)]⟩
    (by decide) (by decide)
    (by intro fc hfc; simp at hfc; subst hfc; exact ⟨by decide, by decide, by decide⟩)
    (by intro m hm; simp [expandAll, Expand, parseExpand, splitBar, splitBarAux,
      crossProduct] at hm; subst hm; decide)).1

/-- Counterexample to C4 as stated: when an inserted key collides with a
key already present (here the forms value equals the text of another
stored phrase), the roundtrip does not restore the state and Check
behaves differently afterwards. -/
theorem add_remove_roundtrip_counterexample :
    hunSpell (removePhrase "x".toList
        (addPhrase ⟨"x".toList, [], [], .error, [("f".toList, "y".toList)]⟩
          (addPhrase ⟨"y".toList, [], [], .error, []⟩
            (emptyState [] (fun _ => []))))).hun "y".toList ≠
      hunSpell (addPhrase ⟨"y".toList, [], [], .error, []⟩
        (emptyState [] (fun _ => []))).hun "y".toList ∧
    (check (removePhrase "x".toList
        (addPhrase ⟨"x".toList, [], [], .error, [("f".toList, "y".toList)]⟩
          (addPhrase ⟨"y".toList, [], [], .error, []⟩
            (emptyState [] (fun _ => []))))) "y".toList true).1 ≠
      (check (addPhrase ⟨"y".toList, [], [], .error, []⟩
        (emptyState [] (fun _ => []))) "y".toList true).1 := by
  refine ⟨by decide, by decide⟩

/-! ### Further invariants of the overlay and residue loops -/

theorem overlayStep_repls_mono (b : Bool) (a : OverAcc × LanguageState) (y : Strn)
    (pr : Strn × Strn) (h : pr ∈ a.1.repls) : pr ∈ (overlayStep b a y).1.repls := by
  unfold overlayStep
  dsimp only
  rcases hmy : trieGet a.2.mistakes y with _ | p <;> simp only [hmy]
  · split <;> simp [h]
  · split
    · split <;> simp [h]
    · split <;> simp [h]

theorem overlayStep_entries_mono (b : Bool) (a : OverAcc × LanguageState) (y : Strn)
    (e : MisspelledEntry) (h : e ∈ a.1.entries) : e ∈ (overlayStep b a y).1.entries := by
  unfold overlayStep
  dsimp only
  rcases hmy : trieGet a.2.mistakes y with _ | p <;> simp only [hmy]
  · exact h
  · split
    · exact h
    · simp [h]

theorem overlayFold_repl_exists (b : Bool) :
    ∀ (l : List Strn) (a : OverAcc × LanguageState) (y : Strn),
      y ∈ l → (trieGet a.2.valid y).isSome = true →
      (y, ([] : Strn)) ∈ (l.foldl (overlayStep b) a).1.repls := by
  intro l
  induction l with
  | nil => intro a y h; simp at h
  | cons z l ih =>
    intro a y hy hv
    simp only [List.foldl_cons]
    rcases List.mem_cons.mp hy with rfl | hy
    · have hin : (y, ([] : Strn)) ∈ (overlayStep b a y).1.repls := by
        unfold overlayStep
        dsimp only
        rcases hmy : trieGet a.2.mistakes y with _ | p <;> simp only [hmy]
        · simp [hv]
        · split <;> simp [hv]
      exact foldlInv (overlayStep b)
        (fun a2 : OverAcc × LanguageState => (y, ([] : Strn)) ∈ a2.1.repls)
        (fun a2 y2 h2 => overlayStep_repls_mono b a2 y2 _ h2) l _ hin
    · refine ih (overlayStep b a z) y hy ?_
      rw [overlayStep_snd]
      exact hv

theorem overlayFold_entry_exists (b : Bool) :
    ∀ (l : List Strn) (a : OverAcc × LanguageState) (y : Strn),
      y ∈ l → (trieGet a.2.mistakes y).isSome = true →
      ∃ e ∈ (l.foldl (overlayStep b) a).1.entries, e.text = y := by
  intro l
  induction l with
  | nil => intro a y h; simp at h
  | cons z l ih =>
    intro a y hy hv
    simp only [List.foldl_cons]
    rcases List.mem_cons.mp hy with rfl | hy
    · have hin : ∃ e ∈ (overlayStep b a y).1.entries, e.text = y := by
        unfold overlayStep
        dsimp only
        rcases hmy : trieGet a.2.mistakes y with _ | p <;> simp only [hmy]
        · rw [hmy] at hv; simp at hv
        · split
          · rename_i hany
            obtain ⟨e, he, heq⟩ := List.any_eq_true.mp hany
            exact ⟨e, he, by simpa using heq⟩
          · exact ⟨overlayEntry b p y, by simp, rfl⟩
      obtain ⟨e, he, heq⟩ := hin
      refine ⟨e, ?_, heq⟩
      exact foldlInv (overlayStep b)
        (fun a2 : OverAcc × LanguageState => e ∈ a2.1.entries)
        (fun a2 y2 h2 => overlayStep_entries_mono b a2 y2 e h2) l _ he
    · refine ih (overlayStep b a z) y hy ?_
      rw [overlayStep_snd]
      exact hv

theorem overlayFold_entries_pairwise (b : Bool) (st : LanguageState) (l : List Strn) :
    ((l.foldl (overlayStep b) (⟨[], []⟩, st)).1.entries).Pairwise
      (fun e1 e2 => e1.text ≠ e2.text) := by
  have h := foldlInv (overlayStep b)
    (fun a : OverAcc × LanguageState =>
      a.1.entries.Pairwise (fun e1 e2 => e1.text ≠ e2.text))
    ?_ l (⟨[], []⟩, st) (by simp)
  · exact h
  · intro a y ha
    unfold overlayStep
    dsimp only
    rcases hmy : trieGet a.2.mistakes y with _ | p <;> simp only [hmy]
    · exact ha
    · split
      · exact ha
      · rename_i hany
        show (a.1.entries ++ [overlayEntry b p y]).Pairwise _
        rw [List.pairwise_append]
        refine ⟨ha, by simp, ?_⟩
        intro e1 he1 e2 he2
        simp only [List.mem_singleton] at he2
        subst he2
        show e1.text ≠ y
        intro heq
        rw [Bool.not_eq_true, List.any_eq_false] at hany
        exact absurd (by simpa using heq) (hany e1 he1)

theorem pairwise_countP_le_one (l : List MisspelledEntry) (m : Strn)
    (h : l.Pairwise (fun e1 e2 => e1.text ≠ e2.text)) :
    l.countP (fun e => e.text == m) ≤ 1 := by
  induction l with
  | nil => simp
  | cons e t ih =>
    rw [List.pairwise_cons] at h
    obtain ⟨h1, h2⟩ := h
    rw [List.countP_cons]
    by_cases he : e.text = m
    · have hzero : t.countP (fun e2 => e2.text == m) = 0 := by
        rw [List.countP_eq_zero]
        intro e2 he2
        have := h1 e2 he2
        rw [he] at this
        simpa using fun hh => this hh.symm
      simp [hzero, he]
    · have hle := ih h2
      have hbe : (e.text == m) = false := by simpa using he
      rw [hbe]
      simpa using hle

theorem overlayFold_entry_suggestions (st : LanguageState) (l : List Strn) (m : Strn)
    (q : Phrase) (hq : trieGet st.mistakes m = some q) :
    ∀ e ∈ (l.foldl (overlayStep true) (⟨[], []⟩, st)).1.entries, e.text = m →
      (q.commonMistakes.contains m = true →
        Suggestion.mk q.text q.description ∈ e.suggestions) ∧
      (∀ c, lookupForm q.forms m = some c →
        Suggestion.mk c q.description ∈ e.suggestions) := by
  have h := foldlInv (overlayStep true)
    (fun a : OverAcc × LanguageState =>
      a.2 = st ∧ ∀ e ∈ a.1.entries, e.text = m →
        (q.commonMistakes.contains m = true →
          Suggestion.mk q.text q.description ∈ e.suggestions) ∧
        (∀ c, lookupForm q.forms m = some c →
          Suggestion.mk c q.description ∈ e.suggestions))
    ?_ l (⟨[], []⟩, st) ⟨rfl, by intro e he; simp at he⟩
  · exact h.2
  · intro a y ha
    obtain ⟨hst, hent⟩ := ha
    refine ⟨(overlayStep_snd true a y).trans hst, ?_⟩
    unfold overlayStep
    dsimp only
    rcases hmy : trieGet a.2.mistakes y with _ | p <;> simp only [hmy]
    · exact hent
    · split
      · exact hent
      · intro e he
        simp only [List.mem_append, List.mem_singleton] at he
        rcases he with he | he
        · exact hent e he
        · subst he
          intro heq
          have hym : y = m := heq
          subst hym
          have hpq : p = q := by
            rw [hst, hq] at hmy
            exact (Option.some.injEq _ _ ▸ hmy.symm :)
          subst hpq
          constructor
          · intro hc
            show Suggestion.mk p.text p.description ∈ (overlayEntry true p y).suggestions
            unfold overlayEntry
            simp only [List.mem_append]
            left
            have hmem : y ∈ p.commonMistakes := by simpa using hc
            simp [hmem]
          · intro c hc
            show Suggestion.mk c p.description ∈ (overlayEntry true p y).suggestions
            unfold overlayEntry
            simp only [List.mem_append]
            right
            simp [hc]

theorem residueFold_entry_tokens (b : Bool) :
    ∀ (toks : List Token) (a : ResAcc × LanguageState),
      ∀ e ∈ (toks.foldl (residueStep b) a).1.entries,
        e ∈ a.1.entries ∨ ∃ tok ∈ toks, tok.letter = true ∧ e.text = tok.text := by
  intro toks
  induction toks with
  | nil => intro a e he; exact Or.inl he
  | cons z ts ih =>
    intro a e he
    simp only [List.foldl_cons] at he
    rcases ih (residueStep b a z) e he with h | h
    · unfold residueStep at h
      dsimp only at h
      by_cases hz : z.letter = true
      · simp only [hz, if_pos] at h
        split at h
        · exact Or.inl h
        · split at h
          · exact Or.inl h
          · simp only [List.mem_append, List.mem_singleton] at h
            rcases h with h | h
            · exact Or.inl h
            · subst h
              exact Or.inr ⟨z, by simp, hz, rfl⟩
      · simp only [hz] at h
        simp only [Bool.false_eq_true, if_false] at h
        exact Or.inl h
    · obtain ⟨tok, htok, hl, heq⟩ := h
      exact Or.inr ⟨tok, by simp [htok], hl, heq⟩

/-! ### Tokenizer facts about alphabetic runs -/

theorem tokGo_letter_alpha : ∀ (cs : Strn) (cls : Bool) (acc : Strn),
    (cls = true → acc.all Char.isAlpha = true) →
    ∀ t ∈ tokGo cls acc cs, t.letter = true → t.text.all Char.isAlpha = true := by
  intro cs
  induction cs with
  | nil =>
    intro cls acc hacc t ht hl
    simp only [tokGo, List.mem_singleton] at ht
    subst ht
    simp only at hl
    subst hl
    simpa using hacc rfl
  | cons c cs ih =>
    intro cls acc hacc t ht hl
    simp only [tokGo] at ht
    split at ht
    · rename_i hcc
      refine ih cls (c :: acc) ?_ t ht hl
      intro hc
      subst hc
      simp only [List.all_cons, Bool.and_eq_true]
      exact ⟨hcc, hacc rfl⟩
    · rcases List.mem_cons.mp ht with rfl | ht2
      · simp only at hl
        subst hl
        simpa using hacc rfl
      · refine ih c.isAlpha [c] ?_ t ht2 hl
        intro hc
        simpa using hc

theorem tokenize_letter_alpha (s : Strn) :
    ∀ t ∈ tokenize s, t.letter = true → t.text.all Char.isAlpha = true := by
  cases s with
  | nil => intro t ht; simp [tokenize] at ht
  | cons c cs =>
    exact tokGo_letter_alpha cs c.isAlpha [c] (fun hc => by simpa using hc)

theorem tokGo_all_alpha : ∀ (cs acc : Strn), acc.all Char.isAlpha = true →
    cs.all Char.isAlpha = true →
    tokGo true acc cs = [⟨acc.reverse ++ cs, true⟩] := by
  intro cs
  induction cs with
  | nil => intro acc _ _; simp [tokGo]
  | cons c cs ih =>
    intro acc hacc hcs
    simp only [List.all_cons, Bool.and_eq_true] at hcs
    obtain ⟨hc, hcs⟩ := hcs
    simp only [tokGo, hc, if_pos]
    rw [ih (c :: acc) (by simp [hc, hacc]) hcs]
    simp

theorem tokenize_all_alpha (s : Strn) (h1 : s ≠ []) (h2 : s.all Char.isAlpha = true) :
    tokenize s = [⟨s, true⟩] := by
  cases s with
  | nil => exact absurd rfl h1
  | cons c cs =>
    simp only [List.all_cons, Bool.and_eq_true] at h2
    obtain ⟨hc, hcs⟩ := h2
    show tokGo c.isAlpha [c] cs = _
    rw [hc, tokGo_all_alpha cs [c] (by simp [hc]) hcs]
    simp

theorem phraseIterator_single (s : Strn) (h1 : s ≠ []) (h2 : s.all Char.isAlpha = true) :
    PhraseIterator s 3 = [s] := by
  unfold PhraseIterator
  rw [tokenize_all_alpha s h1 h2]
  simp [phraseYields, yieldBlocks, iterSteps, pushWindow, stepYields, collectSeqs, concatTexts]

/-! ### Replacer facts -/

theorem replacerGo_nil (fuel : Nat) (pairs : List (Strn × Strn)) :
    replacerGo fuel pairs [] = [] := by
  cases fuel <;> rfl

theorem applyReplacer_all_same (pairs : List (Strn × Strn)) (m : Strn)
    (hall : ∀ pr ∈ pairs, pr = (m, [])) (hne : pairs ≠ []) (hm : m ≠ []) :
    applyReplacer pairs m = [] := by
  cases m with
  | nil => exact absurd rfl hm
  | cons c cs =>
    have hfind : findRepl pairs (c :: cs) = some (c :: cs, []) := by
      cases pairs with
      | nil => exact absurd rfl hne
      | cons pr rest =>
        have hpr : pr = (c :: cs, []) := hall pr (by simp)
        subst hpr
        unfold findRepl
        rw [List.find?_cons_of_pos]
        simp [List.isPrefixOf_iff_prefix]
    show replacerGo (c :: cs).length pairs (c :: cs) = []
    rw [show (c :: cs).length = cs.length + 1 from rfl]
    unfold replacerGo
    rw [hfind]
    simp only
    rw [show (c :: cs).drop (c :: cs, ([] : Strn)).1.length = [] by simp]
    rw [replacerGo_nil]
    rfl

/-! ### C1 and C2: the overlay pass of Check -/

theorem check_entries_eq (st : LanguageState) (text : Strn) (b : Bool) (hne : text ≠ []) :
    (check st text b).1.entries =
      ((PhraseIterator text 3).foldl (overlayStep b) (⟨[], []⟩, st)).1.entries ++
      ((tokenize
          (if ((PhraseIterator text 3).foldl (overlayStep b) (⟨[], []⟩, st)).1.repls ≠ []
           then applyReplacer
             ((PhraseIterator text 3).foldl (overlayStep b) (⟨[], []⟩, st)).1.repls text
           else text)).foldl (residueStep b)
        (⟨[], []⟩,
          ((PhraseIterator text 3).foldl (overlayStep b) (⟨[], []⟩, st)).2)).1.entries := by
  unfold check
  rw [if_neg hne]

/-- C1 (amended): in the overlay loop of Check, a yielded phrase with a
valid-trie hit is recorded as a replacement so that it is not forwarded to
the base checker, but the loop does not skip the phrase: an entry with its
text is emitted exactly when the phrase is also a key of the mistake trie.
Consequently, for a phrase p inserted via AddPhrase, Check(p.text) emits
no entry with text p.text provided p.text is not a mistake-trie key. -/
theorem check_valid_hit_behavior :
    (∀ (st : LanguageState) (b : Bool) (l : List Strn) (y : Strn),
      y ∈ l → (trieGet st.valid y).isSome = true →
      ((y, ([] : Strn)) ∈ (l.foldl (overlayStep b) (⟨[], []⟩, st)).1.repls ∧
        ((∃ e ∈ (l.foldl (overlayStep b) (⟨[], []⟩, st)).1.entries, e.text = y) ↔
          (trieGet st.mistakes y).isSome = true))) ∧
    (∀ (st0 : LanguageState) (p : Phrase) (b : Bool),
      trieGet (addPhrase p st0).mistakes p.text = none →
      ∀ e ∈ (check (addPhrase p st0) p.text b).1.entries, e.text ≠ p.text) := by
  constructor
  · intro st b l y hy hv
    refine ⟨overlayFold_repl_exists b l (⟨[], []⟩, st) y hy hv, ?_⟩
    constructor
    · rintro ⟨e, he, heq⟩
      have h := overlayFold_entries_hit b st l e he
      rwa [heq] at h
    · intro hm
      exact overlayFold_entry_exists b l (⟨[], []⟩, st) y hy hm
  · intro st0 p b hmis e he heq
    by_cases h0 : p.text = []
    · rw [h0] at he
      simp [check] at he
    · rw [check_entries_eq (addPhrase p st0) p.text b h0] at he
      rcases List.mem_append.mp he with he | he
      · have h := overlayFold_entries_hit b (addPhrase p st0) (PhraseIterator p.text 3) e he
        rw [heq, hmis] at h
        simp at h
      · by_cases hal : p.text.all Char.isAlpha = true
        · have hself := addPhrase_valid_self p st0
          have hov : (PhraseIterator p.text 3).foldl (overlayStep b)
              (⟨[], []⟩, addPhrase p st0) = (⟨[(p.text, [])], []⟩, addPhrase p st0) := by
            rw [phraseIterator_single p.text h0 hal]
            simp only [List.foldl_cons, List.foldl_nil]
            unfold overlayStep
            dsimp only
            simp [hself, hmis]
          rw [hov] at he
          simp only at he
          rw [if_pos (by simp),
            applyReplacer_all_same [(p.text, [])] p.text (by simp) (by simp) h0] at he
          simp [tokenize] at he
        · rcases residueFold_entry_tokens b _ _ e he with h | h
          · simp at h
          · obtain ⟨tok, htok, hl, htext⟩ := h
            have halpha := tokenize_letter_alpha _ tok htok hl
            have hpt : p.text = tok.text := heq.symm.trans htext
            rw [hpt] at hal
            exact hal halpha

/-- The fly phrase of the Go test suite. -/
def flyPhrase : Phrase := ⟨"fly".toList, [], ["rymma".toList], .suggestion, []⟩

/-- The rymma phrase of the Go test suite. -/
def rymmaPhrase : Phrase := ⟨"rymma".toList, [], ["fly".toList], .suggestion, []⟩

/-- The state of the Go test suite where each phrase is the other phrase's
common mistake. -/
def flySt : LanguageState :=
  addPhrase rymmaPhrase (addPhrase flyPhrase (emptyState [] (fun _ => [])))

/-- Counterexample to C1 as stated: the phrase fly was inserted via
AddPhrase (so the valid-trie lookup for it is non-nil), yet Check of its
text emits an entry with exactly that text, because fly is also the
mistake-trie key of the phrase rymma.  The code does not skip to the next
phrase after a valid-trie hit. -/
theorem check_valid_hit_counterexample :
    (trieGet flySt.valid flyPhrase.text).isSome = true ∧
    (check flySt flyPhrase.text true).1.entries.map MisspelledEntry.text =
      ["fly".toList] := by
  refine ⟨by decide, by decide⟩

/-- Closed witness for the valid-hit theorem: both conjuncts applied at
concrete states. -/
theorem check_valid_hit_behavior_witness :
    (("fly".toList ∈ PhraseIterator "fly".toList 3 ∧
        (trieGet flySt.valid "fly".toList).isSome = true) ∧
      (("fly".toList, ([] : Strn)) ∈
          ((PhraseIterator "fly".toList 3).foldl (overlayStep true)
            (⟨[], []⟩, flySt)).1.repls ∧
        ((∃ e ∈ ((PhraseIterator "fly".toList 3).foldl (overlayStep true)
            (⟨[], []⟩, flySt)).1.entries, e.text = "fly".toList) ↔
          (trieGet flySt.mistakes "fly".toList).isSome = true))) ∧
    (trieGet (addPhrase ⟨"hund".toList, [], ["hunden".toList], .error, []⟩
        (emptyState [] (fun _ => []))).mistakes "hund".toList = none ∧
      ∀ e ∈ (check (addPhrase ⟨"hund".toList, [], ["hunden".toList], .error, []⟩
          (emptyState [] (fun _ => []))) "hund".toList true).1.entries,
        e.text ≠ "hund".toList) := by
  refine ⟨⟨⟨by decide, by decide⟩, ?_⟩, ⟨by decide, ?_⟩⟩
  · exact check_valid_hit_behavior.1 flySt true (PhraseIterator "fly".toList 3)
      "fly".toList (by decide) (by decide)
  · exact check_valid_hit_behavior.2 (emptyState [] (fun _ => []))
      ⟨"hund".toList, [], ["hunden".toList], .error, []⟩ true (by decide)

/-- C2 (amended): for a phrase p added to an otherwise empty overlay and
any mistake m from its expanded common mistakes or forms keys that the
phrase iterator actually yields in full (in particular any single word and
any phrase of at most three words that starts and ends with a word
character), Check(m, true) returns exactly one entry whose text is m, and
that entry's suggestions include the canonical text (for an expanded
common mistake) and the corrected form (for a forms key), each carrying
the phrase description. -/
theorem check_mistake_reported (D : List Strn) (oracle : Strn → List Strn) (p : Phrase)
    (m : Strn)
    (hm : m ∈ expandAll p.commonMistakes ∨ m ∈ p.forms.map Prod.fst)
    (hy : m ∈ PhraseIterator m 3) :
    (check (addPhrase p (emptyState D oracle)) m true).1.entries.countP
        (fun e => e.text == m) = 1 ∧
    ∀ e ∈ (check (addPhrase p (emptyState D oracle)) m true).1.entries, e.text = m →
      (m ∈ expandAll p.commonMistakes →
        Suggestion.mk p.text p.description ∈ e.suggestions) ∧
      (∀ c, lookupForm p.forms m = some c →
        Suggestion.mk c p.description ∈ e.suggestions) := by
  have hm0 : m ≠ [] := by
    intro h
    rw [h] at hy
    exact absurd hy (by decide)
  have hqm : trieGet (addPhrase p (emptyState D oracle)).mistakes m =
      some (addedPhrase p) := by
    rw [addPhrase_mistakes_get]
    rw [if_pos (List.mem_append.mpr hm)]
  have hsugg : ∀ (l : List Strn),
      ∀ e ∈ (l.foldl (overlayStep true)
        (⟨[], []⟩, addPhrase p (emptyState D oracle))).1.entries, e.text = m →
      (m ∈ expandAll p.commonMistakes →
        Suggestion.mk p.text p.description ∈ e.suggestions) ∧
      (∀ c, lookupForm p.forms m = some c →
        Suggestion.mk c p.description ∈ e.suggestions) := by
    intro l e he heq
    have h := overlayFold_entry_suggestions (addPhrase p (emptyState D oracle)) l m
      (addedPhrase p) hqm e he heq
    refine ⟨fun hcm => h.1 (by simpa [addedPhrase] using hcm), fun c hc => h.2 c hc⟩
  by_cases hal : m.all Char.isAlpha = true
  · -- a single word: the overlay consumes it entirely
    have hEntries : (check (addPhrase p (emptyState D oracle)) m true).1.entries =
        [overlayEntry true (addedPhrase p) m] := by
      by_cases hv : (trieGet (addPhrase p (emptyState D oracle)).valid m).isSome = true
      · have hov : (PhraseIterator m 3).foldl (overlayStep true)
            (⟨[], []⟩, addPhrase p (emptyState D oracle)) =
            (⟨[(m, []), (m, [])], [overlayEntry true (addedPhrase p) m]⟩,
              addPhrase p (emptyState D oracle)) := by
          rw [phraseIterator_single m hm0 hal]
          simp only [List.foldl_cons, List.foldl_nil]
          unfold overlayStep
          dsimp only
          simp [hqm, hv]
        rw [check_entries_eq _ m true hm0, hov]
        simp only
        rw [if_pos (by simp),
          applyReplacer_all_same [(m, []), (m, [])] m
            (by intro pr hpr; simp at hpr; exact hpr) (by simp) hm0]
        simp [tokenize]
      · have hv2 : (trieGet (addPhrase p (emptyState D oracle)).valid m).isSome = false := by
          simpa using hv
        have hov : (PhraseIterator m 3).foldl (overlayStep true)
            (⟨[], []⟩, addPhrase p (emptyState D oracle)) =
            (⟨[(m, [])], [overlayEntry true (addedPhrase p) m]⟩,
              addPhrase p (emptyState D oracle)) := by
          rw [phraseIterator_single m hm0 hal]
          simp only [List.foldl_cons, List.foldl_nil]
          unfold overlayStep
          dsimp only
          simp [hqm, hv2]
        rw [check_entries_eq _ m true hm0, hov]
        simp only
        rw [if_pos (by simp),
          applyReplacer_all_same [(m, [])] m (by simp) (by simp) hm0]
        simp [tokenize]
    constructor
    · rw [hEntries]
      simp [overlayEntry, List.countP_cons]
    · intro e he heq
      rw [hEntries] at he
      simp only [List.mem_singleton] at he
      subst he
      constructor
      · intro hcm
        show _ ∈ (overlayEntry true (addedPhrase p) m).suggestions
        unfold overlayEntry
        simp only [List.mem_append]
        left
        have hmem : m ∈ (addedPhrase p).commonMistakes := by simpa [addedPhrase] using hcm
        simp [hmem, addedPhrase]
        exact hcm
      · intro c hc
        show _ ∈ (overlayEntry true (addedPhrase p) m).suggestions
        unfold overlayEntry
        simp only [List.mem_append]
        right
        have hc2 : lookupForm (addedPhrase p).forms m = some c := hc
        rw [hc2]
        simp [addedPhrase]
  · -- a multi-token mistake: residue entries are single words, never m
    have hres : ∀ e ∈ ((tokenize
        (if ((PhraseIterator m 3).foldl (overlayStep true)
            (⟨[], []⟩, addPhrase p (emptyState D oracle))).1.repls ≠ []
         then applyReplacer ((PhraseIterator m 3).foldl (overlayStep true)
            (⟨[], []⟩, addPhrase p (emptyState D oracle))).1.repls m
         else m)).foldl (residueStep true)
        (⟨[], []⟩, ((PhraseIterator m 3).foldl (overlayStep true)
          (⟨[], []⟩, addPhrase p (emptyState D oracle))).2)).1.entries,
        e.text ≠ m := by
      intro e he heq
      rcases residueFold_entry_tokens true _ _ e he with h | h
      · simp at h
      · obtain ⟨tok, htok, hl, htext⟩ := h
        have halpha := tokenize_letter_alpha _ tok htok hl
        have hmt : m = tok.text := heq.symm.trans htext
        rw [hmt] at hal
        exact hal halpha
    constructor
    · rw [check_entries_eq _ m true hm0, List.countP_append]
      have hres0 : ((tokenize
          (if ((PhraseIterator m 3).foldl (overlayStep true)
              (⟨[], []⟩, addPhrase p (emptyState D oracle))).1.repls ≠ []
           then applyReplacer ((PhraseIterator m 3).foldl (overlayStep true)
              (⟨[], []⟩, addPhrase p (emptyState D oracle))).1.repls m
           else m)).foldl (residueStep true)
          (⟨[], []⟩, ((PhraseIterator m 3).foldl (overlayStep true)
            (⟨[], []⟩, addPhrase p (emptyState D oracle))).2)).1.entries.countP
          (fun e => e.text == m) = 0 := by
        rw [List.countP_eq_zero]
        intro e he
        have := hres e he
        simpa using this
      have hover1 : (((PhraseIterator m 3).foldl (overlayStep true)
          (⟨[], []⟩, addPhrase p (emptyState D oracle))).1.entries).countP
          (fun e => e.text == m) = 1 := by
        refine Nat.le_antisymm
          (pairwise_countP_le_one _ m
            (overlayFold_entries_pairwise true _ (PhraseIterator m 3))) ?_
        have hex := overlayFold_entry_exists true (PhraseIterator m 3)
          (⟨[], []⟩, addPhrase p (emptyState D oracle)) m hy (by rw [hqm]; rfl)
        obtain ⟨e, he, heq⟩ := hex
        have : 0 < (((PhraseIterator m 3).foldl (overlayStep true)
            (⟨[], []⟩, addPhrase p (emptyState D oracle))).1.entries).countP
            (fun e => e.text == m) := by
          rw [List.countP_pos_iff]
          exact ⟨e, he, by simpa using heq⟩
        omega
      rw [hres0, hover1]
    · intro e he heq
      rw [check_entries_eq _ m true hm0] at he
      rcases List.mem_append.mp he with he | he
      · exact hsugg (PhraseIterator m 3) e he heq
      · exact absurd heq (hres e he)

/-- A phrase with a four-word common mistake, never matched because the
iterator only yields phrases of at most three words. -/
def fourWordPhrase : Phrase := ⟨"x".toList, [], ["a b c d".toList], .error, []⟩

/-- Counterexample to C2 as stated: a four-word common mistake is stored
in the mistake trie but Check of that mistake emits no entry with its
text, because the phrase iterator never yields more than three words. -/
theorem check_mistake_reported_counterexample :
    "a b c d".toList ∈ expandAll fourWordPhrase.commonMistakes ∧
    (check (addPhrase fourWordPhrase
        (emptyState ["a".toList, "b".toList, "c".toList, "d".toList] (fun _ => [])))
      "a b c d".toList true).1.entries.countP
      (fun e => e.text == "a b c d".toList) = 0 := by
  refine ⟨by decide, by decide⟩

/-- Closed witness for the mistake-reporting theorem. -/
theorem check_mistake_reported_witness :
    (("mx".toList ∈ expandAll ["mx".toList] ∨
        "mx".toList ∈ ([("fk".toList, "fv".toList)].map Prod.fst)) ∧
      "mx".toList ∈ PhraseIterator "mx".toList 3) ∧
    (check (addPhrase ⟨"x".toList, "d".toList, ["mx".toList], .error,
        [("fk".toList, "fv".toList)]⟩ (emptyState [] (fun _ => []))) "mx".toList
      true).1.entries.countP (fun e => e.text == "mx".toList) = 1 := by
  refine ⟨⟨by decide, by decide⟩, ?_⟩
  exact (check_mistake_reported [] (fun _ => [])
    ⟨"x".toList, "d".toList, ["mx".toList], .error, [("fk".toList, "fv".toList)]⟩
    "mx".toList (by decide) (by decide)).1

end ElephantSpell
